import Mathlib

/-!
Verification of the Robin Hood `HashMap` from `src/task1.cpp`.

The container is modelled by a shallow embedding:

* `elemets` (the source's spelling) models the `std::list` of key/value
  pairs.  Each list node carries a numeric `id` standing for the node's
  identity, so that the probe index can hold a stable reference to a node
  the way the C++ slots hold a `std::list` iterator; `nextId` is the
  counter producing fresh node identities.
* `data` models the `std::vector<HashTableData>` probe index.  A slot is
  `Slot.empty` (the C++ `is_empty = true` state) or `Slot.occ distance id
  key`, where `key` mirrors reading `iterator->first` through the stored
  iterator (keys are immutable `const KeyType` in the source, so the copy
  can never go stale while the reference is live).
* every loop of the source is written with an explicit fuel argument and
  returns `Option`; `none` means the fuel ran out, i.e. the C++ loop would
  still be running (or, for an out-of-bounds slot access, that the C++
  code would have undefined behaviour).  The fuel passed by the public
  operations is the capacity, which suffices whenever the index has an
  empty slot; this is proved, not assumed.
-/

namespace RH

set_option linter.unusedSectionVars false

/-- A probe-index slot: `HashTableData` from the source.  `is_empty = true`
is `Slot.empty`; an occupied slot stores the probe `distance`, and the
ledger-node reference is modelled by the node `id` plus the (immutable)
`key` readable through it. -/
inductive Slot (Key : Type) where
  | empty : Slot Key
  | occ (distance : Nat) (id : Nat) (key : Key) : Slot Key
deriving DecidableEq, Repr

/-- The container state: probe index `data`, the `size_` counter, the
entry list `elemets_` (keeping the source's spelling) as
`(node id, key, value)` triples in list order, and the fresh-node counter. -/
structure HashMap (Key Value : Type) where
  data : List (Slot Key)
  size : Nat
  elemets : List (Nat × Key × Value)
  nextId : Nat
deriving DecidableEq, Repr

/-- `REBUILD_CONSTANT` from the source. -/
def REBUILD_CONSTANT : Nat := 3
/-- `EXTENDED_CONSTANT` from the source. -/
def EXTENDED_CONSTANT : Nat := 2
/-- `EXTENDED_SHIFT` from the source. -/
def EXTENDED_SHIFT : Nat := 3

/-- `next_`: advance a position by one with wraparound (`n` is
`data_.size()`). -/
def next_ (n position : Nat) : Nat :=
  if position + 1 = n then 0 else position + 1

/-- The default-constructed map: capacity 0, size 0, no entries. -/
def HashMap.defaultMap (Key Value : Type) : HashMap Key Value :=
  { data := [], size := 0, elemets := [], nextId := 0 }

/-- Whether a slot is occupied (`!is_empty`). -/
def Slot.isOcc {Key : Type} : Slot Key → Bool
  | .empty => false
  | .occ _ _ _ => true

/-- Number of occupied slots of a probe index. -/
def countOcc {Key : Type} (data : List (Slot Key)) : Nat :=
  data.countP Slot.isOcc

/-- A key's home position: `hasher_(key) % data_.size()`. -/
def home {Key : Type} (hasher : Key → Nat) (n : Nat) (k : Key) : Nat :=
  hasher k % n

/-- Whether the slot at a position is occupied (out of bounds counts as
not occupied). -/
def occAt {Key : Type} (data : List (Slot Key)) (p : Nat) : Bool :=
  match data.get? p with
  | some s => s.isOcc
  | none => false

variable {Key Value : Type} [DecidableEq Key]

/-- The probe loop of `insert` (the `while (true)` in the non-rebuild
branch).  The candidate carried along is `(cid, ckey)` at probe distance
`distance`; on a swap the slot's occupant becomes the new candidate
exactly as in the source. -/
def insertLoop (data : List (Slot Key)) (position distance cid : Nat) (ckey : Key) :
    Nat → Option (List (Slot Key))
  | 0 => none
  | fuel + 1 =>
    match data.get? position with
    | none => none
    | some .empty => some (data.set position (.occ distance cid ckey))
    | some (.occ d id k) =>
      if k = ckey then
        some data
      else if d < distance then
        insertLoop (data.set position (.occ distance cid ckey))
          (next_ data.length position) (d + 1) id k fuel
      else
        insertLoop data (next_ data.length position) (distance + 1) cid ckey fuel

/-- `HashMap::insert`, with `fuel` bounding the depth of `rebuild_`
recursion (a rebuild's re-inserts call `insert` again and can trigger a
nested rebuild).  The first two statements (`size_++;
elemets_.emplace_back(new_value);`) run unconditionally — including for a
key already present. -/
def insertGo (hasher : Key → Nat) :
    Nat → HashMap Key Value → Key × Value → Option (HashMap Key Value)
  | 0, _, _ => none
  | fuel + 1, m, kv =>
    let m1 : HashMap Key Value :=
      { data := m.data, size := m.size + 1,
        elemets := m.elemets ++ [(m.nextId, kv.1, kv.2)], nextId := m.nextId + 1 }
    if m1.size * REBUILD_CONSTANT > m1.data.length then
      -- `data_ = vector(EXTENDED_CONSTANT * data_.size() + EXTENDED_SHIFT)`
      -- followed by `rebuild_()`: reset `size_`, detach the entries and
      -- re-insert every one of them through `insert` itself.
      m1.elemets.foldl
        (fun s e => Option.bind s (fun mm => insertGo hasher fuel mm (e.2.1, e.2.2)))
        (some { data := List.replicate (EXTENDED_CONSTANT * m1.data.length + EXTENDED_SHIFT) Slot.empty,
                size := 0, elemets := [], nextId := m1.nextId })
    else
      match insertLoop m1.data (home hasher m1.data.length kv.1) 0 m.nextId kv.1
          m1.data.length with
      | none => none
      | some data' => some { m1 with data := data' }

/-- Public `insert`: the rebuild-depth fuel `size + 2` is enough for every
state (proved below for the states the claims quantify over). -/
def HashMap.insert (hasher : Key → Nat) (m : HashMap Key Value) (kv : Key × Value) :
    Option (HashMap Key Value) :=
  insertGo hasher (m.size + 2) m kv

/-- The shared lookup walk of `find`/`erase`: starting at a key's home
position, stop at an empty slot (`some none`, not found) or at a slot
whose stored distance equals the walked distance and whose key matches
(`some (some (position, id))`). -/
def probeLoop (data : List (Slot Key)) (ckey : Key) (position distance : Nat) :
    Nat → Option (Option (Nat × Nat))
  | 0 => none
  | fuel + 1 =>
    match data.get? position with
    | none => none
    | some .empty => some none
    | some (.occ d id k) =>
      if d = distance ∧ k = ckey then some (some (position, id))
      else probeLoop data ckey (next_ data.length position) (distance + 1) fuel

/-- `HashMap::find`: `some none` is `end()` (not found); `some (some id)`
is an iterator to the ledger node `id`. -/
def HashMap.find (hasher : Key → Nat) (m : HashMap Key Value) (key : Key) :
    Option (Option Nat) :=
  if m.size = 0 then some none
  else
    (probeLoop m.data key (home hasher m.data.length key) 0 m.data.length).map
      (fun r => r.map (·.2))

/-- The backward-shift loop of `erase`: while the next slot is occupied
with positive distance, move it into the previous (freed) slot with its
distance decremented. -/
def shiftLoop (data : List (Slot Key)) (prev position : Nat) :
    Nat → Option (List (Slot Key))
  | 0 => none
  | fuel + 1 =>
    match data.get? position with
    | none => none
    | some .empty => some data
    | some (.occ d id k) =>
      if 0 < d then
        shiftLoop ((data.set prev (.occ (d - 1) id k)).set position .empty)
          position (next_ data.length position) fuel
      else some data

/-- `HashMap::erase`: locate the slot exactly as in lookup; if found,
decrement `size_`, remove the referenced ledger node, empty the slot and
run the backward shift; otherwise return with the state unchanged. -/
def HashMap.erase (hasher : Key → Nat) (m : HashMap Key Value) (key : Key) :
    Option (HashMap Key Value) :=
  if m.size = 0 then some m
  else
    match probeLoop m.data key (home hasher m.data.length key) 0 m.data.length with
    | none => none
    | some none => some m
    | some (some (p, id)) =>
      let data1 := m.data.set p Slot.empty
      match shiftLoop data1 p (next_ data1.length p) data1.length with
      | none => none
      | some data2 =>
        some { data := data2, size := m.size - 1,
               elemets := m.elemets.eraseP (fun e => decide (e.1 = id)),
               nextId := m.nextId }

/-- Dereference a ledger node id to its value (reading `iterator->second`).
`none` means the reference is dangling, which the invariant rules out. -/
def derefVal (elemets : List (Nat × Key × Value)) (id : Nat) : Option Value :=
  (elemets.find? (fun e => decide (e.1 = id))).map (·.2.2)

/-- `HashMap::at`: `some none` models throwing `std::out_of_range`
(KeyNotFound); `some (some v)` is a returned value. -/
def HashMap.atKey (hasher : Key → Nat) (m : HashMap Key Value) (key : Key) :
    Option (Option Value) :=
  match HashMap.find hasher m key with
  | none => none
  | some none => some none
  | some (some id) =>
    match derefVal m.elemets id with
    | none => none
    | some v => some (some v)

/-- `HashMap::operator[]`: look up; if absent, `insert({key, ValueType()})`
and look up again; return the referenced value together with the new
state. -/
def HashMap.opIndex (hasher : Key → Nat) [Inhabited Value]
    (m : HashMap Key Value) (key : Key) : Option (Value × HashMap Key Value) :=
  match HashMap.find hasher m key with
  | none => none
  | some (some id) =>
    match derefVal m.elemets id with
    | none => none
    | some v => some (v, m)
  | some none =>
    match HashMap.insert hasher m (key, default) with
    | none => none
    | some m' =>
      match HashMap.find hasher m' key with
      | none => none
      | some none => none
      | some (some id) =>
        match derefVal m'.elemets id with
        | none => none
        | some v => some (v, m')

/-- The inner loop of `clear`: from a key's home position, mark
consecutive slots empty until an already-empty slot is met. -/
def clearLoop (data : List (Slot Key)) (position : Nat) :
    Nat → Option (List (Slot Key))
  | 0 => none
  | fuel + 1 =>
    match data.get? position with
    | none => none
    | some .empty => some data
    | some (.occ _ _ _) =>
      clearLoop (data.set position .empty) (next_ data.length position) fuel

/-- The outer loop of `clear`: one `clearLoop` walk per ledger entry. -/
def clearFold (hasher : Key → Nat) (elems : List (Nat × Key × Value))
    (data : List (Slot Key)) : Option (List (Slot Key)) :=
  match elems with
  | [] => some data
  | e :: rest =>
    match clearLoop data (home hasher data.length e.2.1) (data.length + 1) with
    | none => none
    | some d' => clearFold hasher rest d'

/-- `HashMap::clear`: walk the index once per entry, then reset the entry
list and the size counter; the capacity is untouched. -/
def HashMap.clear (hasher : Key → Nat) (m : HashMap Key Value) :
    Option (HashMap Key Value) :=
  match clearFold hasher m.elemets m.data with
  | none => none
  | some d' => some { data := d', size := 0, elemets := [], nextId := m.nextId }

/-- `reserve_`: `data_.resize(EXTENDED_CONSTANT * size)` — a `std::vector`
resize keeps the existing prefix of slots and value-initializes (empties)
any appended ones; a smaller size truncates. -/
def reserve_ (m : HashMap Key Value) (size : Nat) : HashMap Key Value :=
  { m with data :=
      m.data.take (EXTENDED_CONSTANT * size) ++
        List.replicate (EXTENDED_CONSTANT * size - m.data.length) Slot.empty }

/-- `HashMap::operator=` between distinct objects: copy the hash functor
(implicit here, both sides share `hasher`), `reserve_(another.size())`,
then insert every entry of the source in source order.  The destination
is not cleared first. -/
def HashMap.assign (hasher : Key → Nat) (dest src : HashMap Key Value) :
    Option (HashMap Key Value) :=
  src.elemets.foldl
    (fun s e => Option.bind s (fun mm => HashMap.insert hasher mm (e.2.1, e.2.2)))
    (some (reserve_ dest src.size))

/-- The `(key, value)` pairs of a ledger segment, with node ids dropped. -/
def pairsOf (l : List (Nat × Key × Value)) : List (Key × Value) :=
  l.map (fun e => (e.2.1, e.2.2))

/-- The `(key, value)` pairs seen when iterating `begin()`..`end()`. -/
def HashMap.toPairs (m : HashMap Key Value) : List (Key × Value) :=
  pairsOf m.elemets

/-- The identity hash on `Nat`, used for the concrete scenarios. -/
def idHash : Nat → Nat := fun k => k

/-- The state produced by inserting `(1, 10)` into the default `Nat`-map
with the identity hash (used as a concrete invariant state). -/
def mEx : HashMap Nat Nat :=
  { data := [Slot.empty, Slot.occ 0 1 1, Slot.empty], size := 1,
    elemets := [(1, 1, 10)], nextId := 2 }

/-- A sequence of `insert` calls, in order. -/
def insertAll (hasher : Key → Nat) (m : HashMap Key Value) (l : List (Key × Value)) :
    Option (HashMap Key Value) :=
  l.foldl (fun s kv => Option.bind s (fun mm => HashMap.insert hasher mm kv)) (some m)

/-- Robin Hood well-formedness of the probe index:
* `disp`: an occupied slot at position `p` stores exactly the distance of
  `p` from the key's home position (the C8 invariant), and that distance
  is below the capacity;
* `keyInj`: no key occupies two slots;
* `chain`: a slot at positive distance has an occupied predecessor whose
  stored distance is at least one smaller (probe sequences are contiguous
  and distances grow by at most one per step). -/
structure TableOk (hasher : Key → Nat) (data : List (Slot Key)) : Prop where
  disp : ∀ p d id k, data.get? p = some (.occ d id k) →
    d < data.length ∧ p = (home hasher data.length k + d) % data.length
  keyInj : ∀ p q d d' id id' k, data.get? p = some (.occ d id k) →
    data.get? q = some (.occ d' id' k) → p = q
  chain : ∀ p d id k, data.get? p = some (.occ d id k) → 0 < d →
    ∃ d' id' k', data.get? ((p + data.length - 1) % data.length)
      = some (.occ d' id' k') ∧ d ≤ d' + 1

/-- The well-formedness invariant of a container state, maintained by the
public operations (§3 of the spec): the size counter equals the ledger
length, the load factor is at most 1/3, the number of occupied slots never
exceeds the counter, the probe index is Robin Hood well-formed, every
occupied slot references a live ledger node with the cached key, node ids
are unique and below the fresh-id counter. -/
structure Inv (hasher : Key → Nat) (m : HashMap Key Value) : Prop where
  sizeEq : m.size = m.elemets.length
  loadOk : REBUILD_CONSTANT * m.size ≤ m.data.length
  occLe : countOcc m.data ≤ m.size
  tableOk : TableOk hasher m.data
  coher : ∀ p d id k, m.data.get? p = some (.occ d id k) → ∃ v, (id, k, v) ∈ m.elemets
  idsNodup : (m.elemets.map (·.1)).Nodup
  idsLt : ∀ e ∈ m.elemets, e.1 < m.nextId

/-- The intermediate states of `clear` relative to the initial table
`data0`: `clear` only ever turns occupied slots into empty ones (`sub`),
and whenever it has emptied a slot that was occupied in `data0`, the walk
that emptied it continued to the next position, so that position is
already empty too (either it was emptied as well, or it was empty from
the start) (`prop`). -/
structure Cleared (data0 data : List (Slot Key)) : Prop where
  len : data.length = data0.length
  sub : ∀ p d id k, data.get? p = some (.occ d id k) → data0.get? p = some (.occ d id k)
  prop : ∀ p d id k, data0.get? p = some (.occ d id k) → data.get? p = some Slot.empty →
    data.get? ((p + 1) % data0.length) = some Slot.empty ∨
    data0.get? ((p + 1) % data0.length) = some Slot.empty

/-- Canonical slot binding: every occupied slot references the first
ledger entry carrying its key (the entry `find?` and hence iteration
meets first).  This pins down which value a lookup returns when stale
duplicate entries exist further down the ledger. -/
def Canon (m : HashMap Key Value) : Prop :=
  ∀ I K, (∃ p dd, m.data.get? p = some (.occ dd I K)) →
    ∃ v, m.elemets.find? (fun e => decide (e.2.1 = K)) = some (I, K, v)

/-- Every ledger entry's key occupies some slot of the probe index (no
entry has been orphaned by a truncating `reserve_`). -/
def Covered (m : HashMap Key Value) : Prop :=
  ∀ e ∈ m.elemets, ∃ p dd I, m.data.get? p = some (.occ dd I e.2.1)

/-- The states reached once a rebuild has run during copy assignment:
the invariant together with canonical slot bindings and coverage. -/
structure Canonical (hasher : Key → Nat) (m : HashMap Key Value) : Prop where
  inv : Inv hasher m
  canon : Canon m
  covered : Covered m

/- ### Helper lemmas -/

theorem lt_of_get?_some {α : Type} {l : List α} {p : Nat} {a : α}
    (h : l.get? p = some a) : p < l.length := by
  by_contra hc
  rw [List.get?_eq_none.mpr (by omega)] at h
  cases h

theorem get?_some_of_lt {α : Type} (l : List α) {p : Nat} (h : p < l.length) :
    ∃ a, l.get? p = some a := ⟨l.get ⟨p, h⟩, List.get?_eq_get h⟩

theorem get?_set_self {α : Type} (l : List α) (p : Nat) (a : α) (h : p < l.length) :
    (l.set p a).get? p = some a := by
  induction l generalizing p with
  | nil => simp at h
  | cons x xs ih =>
    cases p with
    | zero => rfl
    | succ p => exact ih p (by simpa using h)

theorem get?_set_ne {α : Type} (l : List α) (p q : Nat) (a : α) (h : p ≠ q) :
    (l.set p a).get? q = l.get? q := by
  induction l generalizing p q with
  | nil => simp
  | cons x xs ih =>
    cases p with
    | zero => cases q with
      | zero => exact absurd rfl h
      | succ q => rfl
    | succ p => cases q with
      | zero => rfl
      | succ q => exact ih p q (by omega)

theorem next_eq_mod {n p : Nat} (hp : p < n) : next_ n p = (p + 1) % n := by
  unfold next_
  by_cases h : p + 1 = n
  · simp [h, Nat.mod_self]
  · rw [if_neg h, Nat.mod_eq_of_lt (by omega)]

theorem step_mod {n : Nat} (hn : 0 < n) (s j : Nat) :
    next_ n ((s + j) % n) = (s + (j + 1)) % n := by
  rw [next_eq_mod (Nat.mod_lt _ hn), Nat.mod_add_mod, Nat.add_assoc]

theorem offset_inj {n i j s : Nat} (hi : i < n) (hj : j < n)
    (h : (s + i) % n = (s + j) % n) : i = j := by
  have h2 : i ≡ j [MOD n] := Nat.ModEq.add_left_cancel' s h
  unfold Nat.ModEq at h2
  rw [Nat.mod_eq_of_lt hi, Nat.mod_eq_of_lt hj] at h2
  exact h2

theorem prev_mod {n : Nat} (hn : 0 < n) (s j : Nat) :
    ((s + (j + 1)) % n + n - 1) % n = (s + j) % n := by
  have h1 : (s + (j + 1)) % n + n - 1 = (s + (j + 1)) % n + (n - 1) := by omega
  have h2 : s + (j + 1) + (n - 1) = (s + j) + n := by omega
  rw [h1, Nat.mod_add_mod, h2, Nat.add_mod_right]

theorem disp_form {n H d : Nat} (hH : H < n) (hd : d < n) :
    ((H + d) % n + n - H) % n = d := by
  rcases Nat.lt_or_ge (H + d) n with h | h
  · rw [Nat.mod_eq_of_lt h]
    have h3 : H + d + n - H = d + n := by omega
    rw [h3, Nat.add_mod_right, Nat.mod_eq_of_lt hd]
  · have h2 : (H + d) % n = H + d - n := by
      rw [Nat.mod_eq_sub_mod h, Nat.mod_eq_of_lt (by omega)]
    have h3 : H + d - n + n - H = d := by omega
    rw [h2, h3, Nat.mod_eq_of_lt hd]

theorem exists_empty_slot {data : List (Slot Key)} (h : countOcc data < data.length) :
    ∃ p, p < data.length ∧ data.get? p = some Slot.empty := by
  by_contra hc
  push_neg at hc
  have hall : ∀ s ∈ data, Slot.isOcc s = true := by
    intro s hs
    rcases List.get_of_mem hs with ⟨i, hi⟩
    have hget : data.get? i = some s := by rw [List.get?_eq_get i.isLt, hi]
    cases s with
    | empty => exact absurd hget (hc i i.isLt)
    | occ d id k => rfl
  have := List.countP_eq_length.mpr (fun a ha => hall a ha)
  unfold countOcc at h
  omega

/-- From some empty slot, the least probe offset `e` from a start `s` that
reaches an empty slot: every smaller offset lands on an occupied slot. -/
theorem first_empty_exists {data : List (Slot Key)}
    (hlt : countOcc data < data.length) {s : Nat} (hs : s < data.length) :
    ∃ e, e < data.length ∧ data.get? ((s + e) % data.length) = some Slot.empty ∧
      ∀ j, j < e → ∃ d id k, data.get? ((s + j) % data.length) = some (.occ d id k) := by
  set n := data.length with hn
  have hn0 : 0 < n := by omega
  rcases exists_empty_slot hlt with ⟨p, hp, hpe⟩
  have hex : ∃ t, data.get? ((s + t) % n) = some Slot.empty := by
    refine ⟨(p + n - s) % n, ?_⟩
    have h1 : (s + (p + n - s) % n) % n = (s + (p + n - s)) % n := Nat.add_mod_mod ..
    have h2 : s + (p + n - s) = p + n := by omega
    rw [h1, h2, Nat.add_mod_right, Nat.mod_eq_of_lt hp]
    exact hpe
  classical
  refine ⟨Nat.find hex, ?_, Nat.find_spec hex, ?_⟩
  · have hle : Nat.find hex ≤ (p + n - s) % n := Nat.find_min' hex (by
      have h1 : (s + (p + n - s) % n) % n = (s + (p + n - s)) % n := Nat.add_mod_mod ..
      have h2 : s + (p + n - s) = p + n := by omega
      rw [h1, h2, Nat.add_mod_right, Nat.mod_eq_of_lt hp]
      exact hpe)
    have : (p + n - s) % n < n := Nat.mod_lt _ hn0
    omega
  · intro j hj
    have hne := Nat.find_min hex hj
    have hlt2 : (s + j) % n < data.length := by
      rw [← hn]; exact Nat.mod_lt _ hn0
    rcases get?_some_of_lt data hlt2 with ⟨sl, hsl⟩
    cases sl with
    | empty => exact absurd hsl hne
    | occ d id k => exact ⟨d, id, k, hsl⟩

/-- Walking backward along the `chain` condition: if a key `k` sits at
distance `d`, then for every `j ≤ d` the slot at offset `j` from `k`'s
home is occupied, at stored distance at least `j`. -/
theorem backChain {hasher : Key → Nat} {data : List (Slot Key)} (hT : TableOk hasher data)
    {p d id k} (hp : data.get? p = some (.occ d id k)) :
    ∀ j, j ≤ d → ∃ d' id' k',
      data.get? ((home hasher data.length k + j) % data.length) = some (.occ d' id' k')
        ∧ j ≤ d' := by
  set n := data.length with hn
  have hn0 : 0 < n := by
    have := lt_of_get?_some hp
    omega
  have hdisp := hT.disp p d id k hp
  have haux : ∀ i, i ≤ d → ∃ d' id' k',
      data.get? ((home hasher n k + (d - i)) % n) = some (.occ d' id' k') ∧ d - i ≤ d' := by
    intro i
    induction i with
    | zero =>
      intro _
      exact ⟨d, id, k, by rw [Nat.sub_zero, ← hdisp.2]; exact hp, by omega⟩
    | succ i ih =>
      intro hi
      rcases ih (by omega) with ⟨d', id', k', hocc, hd'⟩
      have hpos : 0 < d' := by omega
      rcases hT.chain _ _ _ _ hocc hpos with ⟨d'', id'', k'', hocc2, hle⟩
      have hstep : d - i = (d - (i + 1)) + 1 := by omega
      rw [hstep, prev_mod hn0] at hocc2
      exact ⟨d'', id'', k'', hocc2, by omega⟩
  intro j hj
  have := haux (d - j) (by omega)
  rw [Nat.sub_sub_self hj] at this
  exact this

theorem get?_replicate {α : Type} (a : α) : ∀ n i, i < n → (List.replicate n a).get? i = some a := by
  intro n
  induction n with
  | zero => intro i hi; omega
  | succ n ih =>
    intro i hi
    cases i with
    | zero => rfl
    | succ i => exact ih i (by omega)

/-- The lookup walk finds a present key: starting `j ≤ d` steps into the
probe sequence of a key stored at distance `d`, the walk reaches the key's
slot and reports its position and node id. -/
theorem probeLoop_found {hasher : Key → Nat} {data : List (Slot Key)}
    (hT : TableOk hasher data) {p d id k} (hp : data.get? p = some (.occ d id k)) :
    ∀ fuel j, j ≤ d → d - j < fuel →
      probeLoop data k ((home hasher data.length k + j) % data.length) j fuel
        = some (some (p, id)) := by
  have hn0 : 0 < data.length := by have := lt_of_get?_some hp; omega
  have hdisp := hT.disp p d id k hp
  intro fuel
  induction fuel with
  | zero => intro j _ h; omega
  | succ fuel ih =>
    intro j hj hfuel
    rcases backChain hT hp j hj with ⟨d', id', k', hocc, hd'⟩
    rcases Nat.eq_or_lt_of_le hj with heq | hlt
    · subst heq
      rw [← hdisp.2] at hocc
      rw [hp] at hocc
      cases hocc
      simp only [probeLoop, ← hdisp.2, hp]
      simp
    · have hkne : k' ≠ k := by
        intro h
        subst h
        have := hT.keyInj _ _ _ _ _ _ _ hocc hp
        rw [hdisp.2] at this
        have := offset_inj (by omega) (by omega) this
        omega
      have hcond : ¬(d' = j ∧ k' = k) := fun h => hkne h.2
      simp only [probeLoop, hocc]
      rw [if_neg hcond, step_mod hn0]
      exact ih (j + 1) hlt (by omega)

/-- The lookup walk on an absent key reaches the first empty slot of the
probe sequence and reports "not found". -/
theorem probeLoop_absent {data : List (Slot Key)} {k : Key}
    (habs : ∀ p d id, ¬ data.get? p = some (.occ d id k))
    {s : Nat} (hs : s < data.length) (hlt : countOcc data < data.length) :
    ∀ fuel, data.length ≤ fuel → probeLoop data k s 0 fuel = some none := by
  have hn0 : 0 < data.length := by omega
  rcases first_empty_exists hlt hs with ⟨e, he, hemp, hoccs⟩
  have haux : ∀ fuel j, j ≤ e → e - j < fuel →
      probeLoop data k ((s + j) % data.length) j fuel = some none := by
    intro fuel
    induction fuel with
    | zero => intro j _ h; omega
    | succ fuel ih =>
      intro j hj hfuel
      rcases Nat.eq_or_lt_of_le hj with heq | hltj
      · subst heq
        simp only [probeLoop, hemp]
      · rcases hoccs j hltj with ⟨d, id, k', hocc⟩
        have hcond : ¬(d = j ∧ k' = k) := by
          rintro ⟨-, h⟩
          subst h
          exact habs _ _ _ hocc
        simp only [probeLoop, hocc]
        rw [if_neg hcond, step_mod hn0]
        exact ih (j + 1) hltj (by omega)
  intro fuel hfuel
  have := haux fuel 0 (by omega) (by omega)
  rwa [Nat.add_zero, Nat.mod_eq_of_lt hs] at this

/-- A state with an occupied slot has a positive size counter. -/
theorem size_pos_of_occ {hasher : Key → Nat} {m : HashMap Key Value} (hI : Inv hasher m)
    {p d id k} (hp : m.data.get? p = some (.occ d id k)) : 0 < m.size := by
  have h1 : 0 < countOcc m.data := by
    apply List.countP_pos_iff.mpr
    exact ⟨_, List.get?_mem hp, rfl⟩
  have := hI.occLe
  omega

theorem countP_set_some {α : Type} (P : α → Bool) (l : List α) :
    ∀ (p : Nat) (a b : α), l.get? p = some b →
      (l.set p a).countP P + (if P b then 1 else 0) = l.countP P + (if P a then 1 else 0) := by
  induction l with
  | nil => intro p a b h; cases h
  | cons x xs ih =>
    intro p a b h
    cases p with
    | zero =>
      cases h
      simp only [List.set, List.countP_cons]
      omega
    | succ p =>
      simp only [List.set, List.countP_cons]
      have := ih p a b h
      omega

theorem countOcc_set_occ_of_empty {data : List (Slot Key)} {p d i : Nat} {k : Key}
    (h : data.get? p = some Slot.empty) :
    countOcc (data.set p (.occ d i k)) = countOcc data + 1 := by
  have := countP_set_some Slot.isOcc data p (.occ d i k) Slot.empty h
  simp [Slot.isOcc] at this
  unfold countOcc
  omega

theorem countOcc_set_occ_of_occ {data : List (Slot Key)} {p d i d' i' : Nat} {k k' : Key}
    (h : data.get? p = some (.occ d' i' k')) :
    countOcc (data.set p (.occ d i k)) = countOcc data := by
  have := countP_set_some Slot.isOcc data p (.occ d i k) (.occ d' i' k') h
  simp [Slot.isOcc] at this
  unfold countOcc
  omega

theorem countOcc_set_empty_of_occ {data : List (Slot Key)} {p d' i' : Nat} {k' : Key}
    (h : data.get? p = some (.occ d' i' k')) :
    countOcc (data.set p Slot.empty) + 1 = countOcc data := by
  have := countP_set_some Slot.isOcc data p Slot.empty (.occ d' i' k') h
  simp [Slot.isOcc] at this
  unfold countOcc
  omega

theorem offset_surj {n H p : Nat} (hH : H < n) (hp : p < n) :
    ∃ j, j < n ∧ (H + j) % n = p := by
  refine ⟨(p + n - H) % n, Nat.mod_lt _ (by omega), ?_⟩
  rw [Nat.add_mod_mod]
  have h2 : H + (p + n - H) = p + n := by omega
  rw [h2, Nat.add_mod_right, Nat.mod_eq_of_lt hp]

theorem countOcc_eq_length_of_all {data : List (Slot Key)}
    (h : ∀ p, p < data.length → ∃ d i k, data.get? p = some (.occ d i k)) :
    countOcc data = data.length := by
  apply List.countP_eq_length.mpr
  intro s hs
  rcases List.get_of_mem hs with ⟨i, hi⟩
  rcases h i i.isLt with ⟨d, id, k, hocc⟩
  rw [List.get?_eq_get i.isLt, hi] at hocc
  cases hocc
  rfl

theorem countOcc_eq_countP_range {Key : Type} (data : List (Slot Key)) :
    countOcc data = (List.range data.length).countP (fun p => occAt data p) := by
  induction data with
  | nil => rfl
  | cons s rest ih =>
    show countOcc (s :: rest) = (List.range (rest.length + 1)).countP _
    rw [List.range_succ_eq_map, List.countP_cons, List.countP_map]
    have hcomp : (((fun p => occAt (s :: rest) p) : Nat → Bool) ∘ Nat.succ)
        = (fun p => occAt rest p) := by
      funext p
      rfl
    rw [hcomp]
    unfold countOcc at ih ⊢
    rw [List.countP_cons, ← ih]
    have h0 : occAt (s :: rest) 0 = s.isOcc := rfl
    rw [h0]

/-- `E` consecutive occupied probe positions force at least `E` occupied
slots. -/
theorem occupied_prefix_le_countOcc {data : List (Slot Key)} {Q E : Nat}
    (hn0 : 0 < data.length) (hE : E ≤ data.length)
    (hocc : ∀ j, j < E → ∃ d i k,
      data.get? ((Q + j) % data.length) = some (.occ d i k)) :
    E ≤ countOcc data := by
  have hposs : ((List.range E).map (fun j => (Q + j) % data.length)).Nodup := by
    apply List.Nodup.map_on ?_ (List.nodup_range E)
    intro x hx y hy hxy
    exact offset_inj (by have := List.mem_range.mp hx; omega)
      (by have := List.mem_range.mp hy; omega) hxy
  have hsub : ((List.range E).map (fun j => (Q + j) % data.length)) ⊆
      (List.range data.length).filter (fun p => occAt data p) := by
    intro a ha
    rcases List.mem_map.mp ha with ⟨j, hj, hja⟩
    apply List.mem_filter.mpr
    constructor
    · rw [← hja]
      exact List.mem_range.mpr (Nat.mod_lt _ hn0)
    · rcases hocc j (List.mem_range.mp hj) with ⟨d, i, k, hk⟩
      rw [← hja]
      unfold occAt
      rw [hk]
      rfl
  have hlen := (hposs.subperm hsub).length_le
  rw [List.length_map, List.length_range] at hlen
  rw [countOcc_eq_countP_range, List.countP_eq_length_filter]
  exact hlen

/-- If the `t + 1` consecutive probe positions from a home `H` are all
occupied and the table has an empty slot, then `t + 1` is below the
capacity. -/
theorem occ_prefix_lt {data : List (Slot Key)} (hlt : countOcc data < data.length)
    {H : Nat} (hH : H < data.length) {t : Nat}
    (hoc : ∀ j, j ≤ t → ∃ d i k,
      data.get? ((H + j) % data.length) = some (.occ d i k)) :
    t + 1 < data.length := by
  by_contra hc
  push_neg at hc
  have hall : ∀ p, p < data.length → ∃ d i k, data.get? p = some (.occ d i k) := by
    intro p hp
    rcases offset_surj hH hp with ⟨j, hj, hjp⟩
    rcases hoc j (by omega) with ⟨d, i, k, hk⟩
    exact ⟨d, i, k, by rwa [hjp] at hk⟩
  have := countOcc_eq_length_of_all hall
  omega

/-- Main lemma on the probe loop of `insert` for a key absent from the
index: the walk terminates at the first empty slot, preserves Robin Hood
well-formedness, occupies exactly one more slot, and the occupants
afterwards are the old occupants plus the new `(cid, ck)` candidate.
`e` is the offset of the first empty slot ahead of the current position
`(home ck + dist) % capacity`. -/
theorem insertLoop_fresh_aux {hasher : Key → Nat} :
    ∀ (fuel : Nat) (data : List (Slot Key)) (ck : Key) (cid dist e : Nat),
      TableOk hasher data →
      countOcc data < data.length →
      (∀ p d i, ¬ data.get? p = some (.occ d i ck)) →
      dist < data.length →
      (∀ j, j < dist → ∃ d' i' k',
        data.get? ((home hasher data.length ck + j) % data.length) = some (.occ d' i' k')) →
      (0 < dist → ∃ d' i' k',
        data.get? ((home hasher data.length ck + (dist - 1)) % data.length)
          = some (.occ d' i' k') ∧ dist ≤ d' + 1) →
      e < data.length →
      data.get? ((home hasher data.length ck + dist + e) % data.length) = some Slot.empty →
      (∀ j, j < e → ∃ d' i' k',
        data.get? ((home hasher data.length ck + dist + j) % data.length)
          = some (.occ d' i' k')) →
      e < fuel →
      ∃ data', insertLoop data ((home hasher data.length ck + dist) % data.length)
          dist cid ck fuel = some data' ∧
        data'.length = data.length ∧
        TableOk hasher data' ∧
        countOcc data' = countOcc data + 1 ∧
        (∀ I K, (∃ p dd, data'.get? p = some (.occ dd I K)) ↔
          ((∃ p dd, data.get? p = some (.occ dd I K)) ∨ (I = cid ∧ K = ck))) := by
  intro fuel
  induction fuel with
  | zero => intro data ck cid dist e _ _ _ _ _ _ _ _ _ h; omega
  | succ fuel ih =>
    intro data ck cid dist e hT hlt hfresh hdist hpath hbound he hemp hoccs hfuel
    have hn0 : 0 < data.length := by omega
    set n := data.length with hn
    set H := home hasher n ck with hH
    have hHlt : H < n := Nat.mod_lt _ hn0
    set pos := (H + dist) % n with hposdef
    have hposlt : pos < n := Nat.mod_lt _ hn0
    rcases get?_some_of_lt data (by omega : pos < data.length) with ⟨sl, hsl⟩
    cases sl with
    | empty =>
      -- place the candidate in the empty slot
      set data1 := data.set pos (.occ dist cid ck) with hdata1
      have hlen1 : data1.length = n := by rw [hdata1, List.length_set, ← hn]
      have hget1self : data1.get? pos = some (.occ dist cid ck) :=
        get?_set_self data pos _ (by omega)
      have hget1ne : ∀ q, q ≠ pos → data1.get? q = data.get? q := by
        intro q hq
        exact get?_set_ne data pos q _ (fun hh => hq hh.symm)
      refine ⟨data1, ?_, hlen1, ?_, ?_, ?_⟩
      · simp only [insertLoop, hsl]
      · constructor
        · intro p d i k h
          rw [hlen1]
          by_cases hp : p = pos
          · subst hp
            rw [hget1self] at h
            cases h
            exact ⟨by omega, hposdef⟩
          · rw [hget1ne p hp] at h
            have := hT.disp p d i k h
            rw [← hn] at this
            exact this
        · intro p q d d' i i' k h1 h2
          by_cases hp : p = pos <;> by_cases hq : q = pos
          · rw [hp, hq]
          · subst hp
            rw [hget1self] at h1
            cases h1
            rw [hget1ne q hq] at h2
            exact absurd h2 (hfresh q d' i')
          · subst hq
            rw [hget1self] at h2
            cases h2
            rw [hget1ne p hp] at h1
            exact absurd h1 (hfresh p d i)
          · rw [hget1ne p hp] at h1
            rw [hget1ne q hq] at h2
            exact hT.keyInj p q d d' i i' k h1 h2
        · intro r d i k h hd
          rw [hlen1]
          by_cases hr : r = pos
          · subst hr
            rw [hget1self] at h
            cases h
            rcases hbound hd with ⟨d', i', k', hprev, hle⟩
            have hprevpos : (pos + n - 1) % n = (H + (dist - 1)) % n := by
              have hd1 : dist - 1 + 1 = dist := by omega
              have := prev_mod hn0 H (dist - 1)
              rw [hd1] at this
              rw [hposdef, this]
            rw [hprevpos]
            have hne : (H + (dist - 1)) % n ≠ pos := by
              rw [hposdef]
              intro hcontra
              have := offset_inj (by omega : dist - 1 < n) (by omega : dist < n) hcontra
              omega
            rw [hget1ne _ hne]
            exact ⟨d', i', k', hprev, hle⟩
          · rw [hget1ne r hr] at h
            rcases hT.chain r d i k h hd with ⟨d', i', k', hprev, hle⟩
            rw [← hn] at hprev
            by_cases hpr : (r + n - 1) % n = pos
            · rw [hpr, hsl] at hprev
              cases hprev
            · rw [← hget1ne _ hpr] at hprev
              exact ⟨d', i', k', hprev, hle⟩
      · rw [hdata1]
        exact countOcc_set_occ_of_empty hsl
      · intro I K
        constructor
        · rintro ⟨p, dd, h⟩
          by_cases hp : p = pos
          · subst hp
            rw [hget1self] at h
            cases h
            exact Or.inr ⟨rfl, rfl⟩
          · rw [hget1ne p hp] at h
            exact Or.inl ⟨p, dd, h⟩
        · rintro (⟨p, dd, h⟩ | ⟨hI, hK⟩)
          · have hp : p ≠ pos := by
              intro hcontra
              rw [hcontra, hsl] at h
              cases h
            exact ⟨p, dd, by rw [hget1ne p hp]; exact h⟩
          · subst hI; subst hK
            exact ⟨pos, dist, hget1self⟩
    | occ d0 i0 k0 =>
      have hk0ne : ¬ (k0 = ck) := fun h => hfresh pos d0 i0 (h ▸ hsl)
      have hepos : 0 < e := by
        rcases Nat.eq_zero_or_pos e with h0 | h
        · subst h0
          rw [Nat.add_zero] at hemp
          rw [← hposdef] at hemp
          rw [hemp] at hsl
          cases hsl
        · exact h
      -- translate the empty-slot data to the next position
      have hshift : ∀ x, (H + dist + x) % n = (pos + x) % n := by
        intro x
        rw [hposdef, Nat.mod_add_mod]
      by_cases hswap : d0 < dist
      · -- Robin Hood swap: the occupant is evicted and walks on
        set data1 := data.set pos (.occ dist cid ck) with hdata1
        have hlen1 : data1.length = n := by rw [hdata1, List.length_set]
        have hdisp0 := hT.disp pos d0 i0 k0 hsl
        rw [← hn] at hdisp0
        set H0 := home hasher n k0 with hH0
        have hH0lt : H0 < n := Nat.mod_lt _ hn0
        have hget1self : data1.get? pos = some (.occ dist cid ck) :=
          get?_set_self data pos _ (by omega)
        have hget1ne : ∀ q, q ≠ pos → data1.get? q = data.get? q := by
          intro q hq
          exact get?_set_ne data pos q _ (fun hh => hq hh.symm)
        -- the evicted occupant's own probe path, in `data1`
        have hpath0 : ∀ j, j ≤ d0 → ∃ d' i' k',
            data1.get? ((H0 + j) % n) = some (.occ d' i' k') := by
          intro j hj
          rcases Nat.eq_or_lt_of_le hj with heq | hjlt
          · subst heq
            rw [← hdisp0.2]
            exact ⟨dist, cid, ck, hget1self⟩
          · rcases backChain hT hsl j (by omega) with ⟨d', i', k', hocc, _⟩
            rw [← hn, ← hH0] at hocc
            have hne : (H0 + j) % n ≠ pos := by
              rw [hdisp0.2]
              intro hcontra
              have := offset_inj (by omega : j < n) (by omega : d0 < n) hcontra
              omega
            rw [← hget1ne _ hne] at hocc
            exact ⟨d', i', k', hocc⟩
        have hT1 : TableOk hasher data1 := by
          constructor
          · intro p d i k h
            rw [hlen1]
            by_cases hp : p = pos
            · subst hp
              rw [hget1self] at h
              cases h
              exact ⟨by omega, hposdef⟩
            · rw [hget1ne p hp] at h
              have := hT.disp p d i k h
              rw [← hn] at this
              exact this
          · intro p q d d' i i' k h1 h2
            by_cases hp : p = pos <;> by_cases hq : q = pos
            · rw [hp, hq]
            · subst hp
              rw [hget1self] at h1
              cases h1
              rw [hget1ne q hq] at h2
              exact absurd h2 (hfresh q d' i')
            · subst hq
              rw [hget1self] at h2
              cases h2
              rw [hget1ne p hp] at h1
              exact absurd h1 (hfresh p d i)
            · rw [hget1ne p hp] at h1
              rw [hget1ne q hq] at h2
              exact hT.keyInj p q d d' i i' k h1 h2
          · intro r d i k h hd
            rw [hlen1]
            by_cases hr : r = pos
            · subst hr
              rw [hget1self] at h
              cases h
              rcases hbound hd with ⟨d', i', k', hprev, hle⟩
              have hprevpos : (pos + n - 1) % n = (H + (dist - 1)) % n := by
                have hd1 : dist - 1 + 1 = dist := by omega
                have := prev_mod hn0 H (dist - 1)
                rw [hd1] at this
                rw [hposdef, this]
              rw [hprevpos]
              have hne : (H + (dist - 1)) % n ≠ pos := by
                rw [hposdef]
                intro hcontra
                have := offset_inj (by omega : dist - 1 < n) (by omega : dist < n) hcontra
                omega
              rw [hget1ne _ hne]
              exact ⟨d', i', k', hprev, hle⟩
            · rw [hget1ne r hr] at h
              rcases hT.chain r d i k h hd with ⟨d', i', k', hprev, hle⟩
              rw [← hn] at hprev
              by_cases hpr : (r + n - 1) % n = pos
              · rw [hpr, hsl] at hprev
                cases hprev
                rw [hpr, hget1self]
                exact ⟨dist, cid, ck, rfl, by omega⟩
              · rw [← hget1ne _ hpr] at hprev
                exact ⟨d', i', k', hprev, hle⟩
        have hlt1 : countOcc data1 < data1.length := by
          rw [hlen1, hdata1, countOcc_set_occ_of_occ hsl]
          omega
        have hfresh1 : ∀ p d i, ¬ data1.get? p = some (.occ d i k0) := by
          intro p d i hcontra
          by_cases hp : p = pos
          · subst hp
            rw [hget1self] at hcontra
            cases hcontra
            exact hk0ne rfl
          · rw [hget1ne p hp] at hcontra
            have := hT.keyInj p pos d d0 i i0 k0 hcontra hsl
            exact hp this
        have hdist1 : d0 + 1 < n := by
          have hoc1 : ∀ j, j ≤ d0 → ∃ d' i' k',
              data1.get? ((H0 + j) % data1.length) = some (.occ d' i' k') := by
            intro j hj
            rcases hpath0 j hj with ⟨d', i', k', hk⟩
            exact ⟨d', i', k', by rw [hlen1]; exact hk⟩
          have := occ_prefix_lt hlt1 (by rw [hlen1]; exact hH0lt) hoc1
          rw [hlen1] at this
          exact this
        -- facts about the position after the swap
        have hpos1 : next_ n pos = (H0 + (d0 + 1)) % n := by
          rw [hdisp0.2, step_mod hn0]
        have hemp1 : data1.get? ((H0 + (d0 + 1) + (e - 1)) % n) = some Slot.empty := by
          have hx : (H0 + (d0 + 1) + (e - 1)) % n = (pos + e) % n := by
            rw [hdisp0.2, Nat.mod_add_mod]
            congr 1
            omega
          have hne : (pos + e) % n ≠ pos := by
            intro hcontra
            have h0 : (pos + e) % n = (pos + 0) % n := by
              rw [Nat.add_zero, Nat.mod_eq_of_lt hposlt]
              exact hcontra
            have := offset_inj (by omega : e < n) (by omega : 0 < n) h0
            omega
          rw [hx, hget1ne _ hne, ← hshift e]
          exact hemp
        have hoccs1 : ∀ j, j < e - 1 → ∃ d' i' k',
            data1.get? ((H0 + (d0 + 1) + j) % n) = some (.occ d' i' k') := by
          intro j hj
          have hx : (H0 + (d0 + 1) + j) % n = (pos + (1 + j)) % n := by
            rw [hdisp0.2, Nat.mod_add_mod]
            congr 1
            omega
          have hne : (pos + (1 + j)) % n ≠ pos := by
            intro hcontra
            have h0 : (pos + (1 + j)) % n = (pos + 0) % n := by
              rw [Nat.add_zero, Nat.mod_eq_of_lt hposlt]
              exact hcontra
            have := offset_inj (by omega : 1 + j < n) (by omega : 0 < n) h0
            omega
          rcases hoccs (1 + j) (by omega) with ⟨d', i', k', hk⟩
          rw [hshift (1 + j)] at hk
          exact ⟨d', i', k', by rw [hx, hget1ne _ hne]; exact hk⟩
        have hboundfact : 0 < d0 + 1 → ∃ d' i' k',
            data1.get? ((H0 + (d0 + 1 - 1)) % n) = some (.occ d' i' k') ∧ d0 + 1 ≤ d' + 1 := by
          intro _
          have hx : d0 + 1 - 1 = d0 := by omega
          rw [hx, ← hdisp0.2]
          exact ⟨dist, cid, ck, hget1self, by omega⟩
        have hrec := ih data1 k0 i0 (d0 + 1) (e - 1) hT1
          hlt1
          hfresh1
          (by rw [hlen1]; exact hdist1)
          (by
            intro j hj
            rcases hpath0 j (by omega) with ⟨d', i', k', hk⟩
            rw [hlen1]
            exact ⟨d', i', k', hk⟩)
          (by rw [hlen1]; exact hboundfact)
          (by rw [hlen1]; omega)
          (by rw [hlen1]; exact hemp1)
          (by rw [hlen1]; exact hoccs1)
          (by omega)
        rw [hlen1] at hrec
        rcases hrec with ⟨data', hres, hlen', hT', hcnt', hchar'⟩
        refine ⟨data', ?_, by rw [hlen', hn], hT', ?_, ?_⟩
        · simp only [insertLoop, hsl]
          rw [if_neg hk0ne, if_pos hswap, ← hn, ← hdata1, hpos1]
          exact hres
        · rw [hcnt', hdata1, countOcc_set_occ_of_occ hsl]
        · intro I K
          rw [hchar' I K]
          constructor
          · rintro (⟨p, dd, h⟩ | ⟨hI, hK⟩)
            · by_cases hp : p = pos
              · subst hp
                rw [hget1self] at h
                cases h
                exact Or.inr ⟨rfl, rfl⟩
              · rw [hget1ne p hp] at h
                exact Or.inl ⟨p, dd, h⟩
            · subst hI; subst hK
              exact Or.inl ⟨pos, d0, hsl⟩
          · rintro (⟨p, dd, h⟩ | ⟨hI, hK⟩)
            · by_cases hp : p = pos
              · subst hp
                rw [hsl] at h
                cases h
                exact Or.inr ⟨rfl, rfl⟩
              · exact Or.inl ⟨p, dd, by rw [hget1ne p hp]; exact h⟩
            · subst hI; subst hK
              exact Or.inl ⟨pos, dist, hget1self⟩
      · -- no swap: advance with the same candidate
        have hpos1 : next_ n pos = (H + (dist + 1)) % n := by
          rw [hposdef, step_mod hn0]
        have hdist1 : dist + 1 < n := by
          have hoc1 : ∀ j, j ≤ dist → ∃ d' i' k',
              data.get? ((H + j) % data.length) = some (.occ d' i' k') := by
            intro j hj
            rcases Nat.eq_or_lt_of_le hj with heq | hjlt
            · subst heq
              exact ⟨d0, i0, k0, hsl⟩
            · exact hpath j hjlt
          exact occ_prefix_lt (by omega) (by omega : H < data.length) hoc1
        have hrec := ih data ck cid (dist + 1) (e - 1) hT hlt hfresh
          (by omega)
          (by
            intro j hj
            rcases Nat.eq_or_lt_of_le (Nat.lt_succ_iff.mp hj) with heq | hjlt
            · subst heq
              exact ⟨d0, i0, k0, hsl⟩
            · exact hpath j hjlt)
          (by
            intro _
            have hx : dist + 1 - 1 = dist := by omega
            rw [hx, ← hposdef]
            exact ⟨d0, i0, k0, hsl, by omega⟩)
          (by omega)
          (by
            have hx : (H + (dist + 1) + (e - 1)) % n = (H + dist + e) % n := by
              congr 1
              omega
            rw [hx]
            exact hemp)
          (by
            intro j hj
            have hx : (H + (dist + 1) + j) % n = (H + dist + (1 + j)) % n := by
              congr 1
              omega
            rw [hx]
            exact hoccs (1 + j) (by omega))
          (by omega)
        rcases hrec with ⟨data', hres, hlen', hT', hcnt', hchar'⟩
        refine ⟨data', ?_, hlen', hT', hcnt', hchar'⟩
        simp only [insertLoop, hsl]
        rw [if_neg hk0ne, if_neg hswap, ← hn, hpos1]
        exact hres

/-- Under the invariant, occupancy is strictly below capacity whenever the
size counter is positive. -/
theorem countOcc_lt_of_size_pos {hasher : Key → Nat} {m : HashMap Key Value}
    (hI : Inv hasher m) (hs : 0 < m.size) : countOcc m.data < m.data.length := by
  have h1 := hI.loadOk
  have h2 := hI.occLe
  unfold REBUILD_CONSTANT at h1
  omega

/-- `find` on a present key returns an iterator to the referenced node. -/
theorem find_present {hasher : Key → Nat} {m : HashMap Key Value} (hI : Inv hasher m)
    {p d id k} (hp : m.data.get? p = some (.occ d id k)) :
    m.find hasher k = some (some id) := by
  have hs := size_pos_of_occ hI hp
  have hn0 : 0 < m.data.length := by
    have := hI.loadOk
    unfold REBUILD_CONSTANT at this
    omega
  have hd := hI.tableOk.disp p d id k hp
  unfold HashMap.find
  rw [if_neg (by omega)]
  have hH : home hasher m.data.length k < m.data.length := Nat.mod_lt _ hn0
  have := probeLoop_found hI.tableOk hp m.data.length 0 (by omega) (by omega)
  rw [Nat.add_zero, Nat.mod_eq_of_lt hH] at this
  rw [this]
  rfl

/-- `find` on an absent key returns `end()`. -/
theorem find_absent {hasher : Key → Nat} {m : HashMap Key Value} (hI : Inv hasher m)
    {k : Key} (habs : ∀ p d id, ¬ m.data.get? p = some (.occ d id k)) :
    m.find hasher k = some none := by
  unfold HashMap.find
  by_cases hs : m.size = 0
  · rw [if_pos hs]
  · rw [if_neg hs]
    have hlt := countOcc_lt_of_size_pos hI (by omega)
    have hn0 : 0 < m.data.length := by omega
    have hH : home hasher m.data.length k < m.data.length := Nat.mod_lt _ hn0
    rw [probeLoop_absent habs hH hlt m.data.length (by omega)]
    rfl

/-- The probe loop of `insert` on a key already present in the index
walks to the key's slot without modifying anything and returns the table
unchanged (the duplicate is discarded; the caller's `size_++` and ledger
append are not rolled back). -/
theorem insertLoop_dup {hasher : Key → Nat} {data : List (Slot Key)}
    (hT : TableOk hasher data) {p dk ik : Nat} {ck : Key}
    (hp : data.get? p = some (.occ dk ik ck)) :
    ∀ fuel j cid, j ≤ dk → dk - j < fuel →
      insertLoop data ((home hasher data.length ck + j) % data.length) j cid ck fuel
        = some data := by
  have hn0 : 0 < data.length := by have := lt_of_get?_some hp; omega
  have hdisp := hT.disp p dk ik ck hp
  intro fuel
  induction fuel with
  | zero => intro j cid _ h; omega
  | succ fuel ih =>
    intro j cid hj hfuel
    rcases backChain hT hp j hj with ⟨d', id', k', hocc, hd'⟩
    rcases Nat.eq_or_lt_of_le hj with heq | hlt
    · subst heq
      rw [← hdisp.2] at hocc
      rw [hp] at hocc
      cases hocc
      simp only [insertLoop, ← hdisp.2, hp]
      simp
    · have hkne : k' ≠ ck := by
        intro h
        subst h
        have := hT.keyInj _ _ _ _ _ _ _ hocc hp
        rw [hdisp.2] at this
        have := offset_inj (by omega) (by omega) this
        omega
      simp only [insertLoop, hocc]
      rw [if_neg hkne, if_neg (by omega : ¬ d' < j), step_mod hn0]
      exact ih (j + 1) cid hlt (by omega)

theorem countOcc_replicate (n : Nat) : countOcc (List.replicate n (Slot.empty : Slot Key)) = 0 := by
  induction n with
  | zero => rfl
  | succ n ih =>
    simp only [List.replicate, countOcc, List.countP_cons]
    unfold countOcc at ih
    simp [ih, Slot.isOcc]

theorem get?_replicate_cases {α : Type} {a x : α} {n i : Nat}
    (h : (List.replicate n a).get? i = some x) : x = a := by
  have hi : i < n := by
    have := lt_of_get?_some h
    simpa using this
  rw [get?_replicate a n i hi] at h
  cases h
  rfl

theorem TableOk_replicate {hasher : Key → Nat} (n : Nat) :
    TableOk hasher (List.replicate n (Slot.empty : Slot Key)) := by
  constructor
  · intro p d i k h
    have := get?_replicate_cases h
    cases this
  · intro p q d d' i i' k h1 h2
    have := get?_replicate_cases h1
    cases this
  · intro p d i k h hd
    have := get?_replicate_cases h
    cases this

/-- A single `insert` call in its non-rebuild branch, on a key absent from
the index: the walk places the key, the load check passed, and all
bookkeeping is as in the source. -/
theorem insertGo_noRebuild_fresh {hasher : Key → Nat} {m : HashMap Key Value}
    (hI : Inv hasher m) {k : Key} (v : Value)
    (hfresh : ∀ p d i, ¬ m.data.get? p = some (.occ d i k))
    (hload : ¬ (m.size + 1) * REBUILD_CONSTANT > m.data.length) (fuel : Nat) :
    ∃ m', insertGo hasher (fuel + 1) m (k, v) = some m' ∧
      Inv hasher m' ∧
      m'.data.length = m.data.length ∧
      m'.size = m.size + 1 ∧
      m'.elemets = m.elemets ++ [(m.nextId, k, v)] ∧
      m'.nextId = m.nextId + 1 ∧
      countOcc m'.data = countOcc m.data + 1 ∧
      (∀ I K, (∃ p dd, m'.data.get? p = some (.occ dd I K)) ↔
        ((∃ p dd, m.data.get? p = some (.occ dd I K)) ∨ (I = m.nextId ∧ K = k))) := by
  have hload' : (m.size + 1) * REBUILD_CONSTANT ≤ m.data.length := by omega
  unfold REBUILD_CONSTANT at hload'
  have hn0 : 0 < m.data.length := by omega
  have hlt : countOcc m.data < m.data.length := by
    have := hI.occLe
    omega
  have hH : home hasher m.data.length k < m.data.length := Nat.mod_lt _ hn0
  rcases first_empty_exists hlt hH with ⟨e, he, hemp, hoccs⟩
  have haux := insertLoop_fresh_aux m.data.length m.data k m.nextId 0 e
    hI.tableOk hlt hfresh (by omega)
    (by intro j hj; omega)
    (by intro h; omega)
    (by omega)
    (by
      have hx : home hasher m.data.length k + 0 + e = home hasher m.data.length k + e := by
        omega
      rw [hx]
      exact hemp)
    (by
      intro j hj
      have hx : home hasher m.data.length k + 0 + j = home hasher m.data.length k + j := by
        omega
      rw [hx]
      exact hoccs j hj)
    (by omega)
  rcases haux with ⟨data', hres, hlen', hT', hcnt', hchar'⟩
  have hstart : (home hasher m.data.length k + 0) % m.data.length
      = home hasher m.data.length k := by
    rw [Nat.add_zero, Nat.mod_eq_of_lt hH]
  rw [hstart] at hres
  refine ⟨{ data := data', size := m.size + 1,
            elemets := m.elemets ++ [(m.nextId, k, v)], nextId := m.nextId + 1 },
    ?_, ?_, hlen', rfl, rfl, rfl, hcnt', hchar'⟩
  · show insertGo hasher (fuel + 1) m (k, v) = _
    simp only [insertGo]
    rw [if_neg hload]
    rw [hres]
  · constructor
    · simp [hI.sizeEq]
    · show REBUILD_CONSTANT * (m.size + 1) ≤ data'.length
      unfold REBUILD_CONSTANT
      omega
    · show countOcc data' ≤ m.size + 1
      rw [hcnt']
      have := hI.occLe
      omega
    · exact hT'
    · intro p d i kk h
      rcases (hchar' i kk).mp ⟨p, d, h⟩ with hold | ⟨hi, hk⟩
      · rcases hold with ⟨p', dd', h'⟩
        rcases hI.coher p' dd' i kk h' with ⟨vv, hvv⟩
        exact ⟨vv, List.mem_append_left _ hvv⟩
      · subst hi; subst hk
        exact ⟨v, List.mem_append_right _ (by simp)⟩
    · rw [List.map_append]
      rw [List.nodup_append]
      refine ⟨hI.idsNodup, by simp, ?_⟩
      intro a ha hb
      rcases List.mem_map.mp ha with ⟨ent, hent, hid⟩
      rcases List.mem_map.mp hb with ⟨ent2, hent2, hid2⟩
      have h2 : ent2 = (m.nextId, k, v) := by simpa using hent2
      subst h2
      have hid' : ent.1 = a := hid
      have hid2' : m.nextId = a := hid2
      have := hI.idsLt ent hent
      omega
    · intro ent hent
      show ent.1 < m.nextId + 1
      rcases List.mem_append.mp hent with hl | hr
      · have := hI.idsLt ent hl
        omega
      · simp at hr
        rw [hr]
        exact Nat.lt_succ_self _

/-- A single `insert` call in its non-rebuild branch, on a key already in
the index: the probe index is unchanged, but `size_` and the entry list
still grow (the duplicate-insert slip). -/
theorem insertGo_noRebuild_dup {hasher : Key → Nat} {m : HashMap Key Value}
    (hI : Inv hasher m) {k : Key} (v : Value)
    {p dk ik : Nat} (hp : m.data.get? p = some (.occ dk ik k))
    (hload : ¬ (m.size + 1) * REBUILD_CONSTANT > m.data.length) (fuel : Nat) :
    insertGo hasher (fuel + 1) m (k, v)
      = some { data := m.data, size := m.size + 1,
               elemets := m.elemets ++ [(m.nextId, k, v)], nextId := m.nextId + 1 } ∧
    Inv hasher { data := m.data, size := m.size + 1,
                 elemets := m.elemets ++ [(m.nextId, k, v)], nextId := m.nextId + 1 } := by
  have hload' : (m.size + 1) * REBUILD_CONSTANT ≤ m.data.length := by omega
  unfold REBUILD_CONSTANT at hload'
  have hn0 : 0 < m.data.length := by omega
  have hH : home hasher m.data.length k < m.data.length := Nat.mod_lt _ hn0
  have hdk := hI.tableOk.disp p dk ik k hp
  have hdup := insertLoop_dup hI.tableOk hp m.data.length 0 m.nextId (by omega) (by omega)
  have hstart : (home hasher m.data.length k + 0) % m.data.length
      = home hasher m.data.length k := by
    rw [Nat.add_zero, Nat.mod_eq_of_lt hH]
  rw [hstart] at hdup
  constructor
  · show insertGo hasher (fuel + 1) m (k, v) = _
    simp only [insertGo]
    rw [if_neg hload]
    rw [hdup]
  · constructor
    · simp [hI.sizeEq]
    · show REBUILD_CONSTANT * (m.size + 1) ≤ m.data.length
      unfold REBUILD_CONSTANT
      omega
    · show countOcc m.data ≤ m.size + 1
      have := hI.occLe
      omega
    · exact hI.tableOk
    · intro p' d' i' kk h
      rcases hI.coher p' d' i' kk h with ⟨vv, hvv⟩
      exact ⟨vv, List.mem_append_left _ hvv⟩
    · rw [List.map_append]
      rw [List.nodup_append]
      refine ⟨hI.idsNodup, by simp, ?_⟩
      intro a ha hb
      rcases List.mem_map.mp ha with ⟨ent, hent, hid⟩
      rcases List.mem_map.mp hb with ⟨ent2, hent2, hid2⟩
      have h2 : ent2 = (m.nextId, k, v) := by simpa using hent2
      subst h2
      have hid' : ent.1 = a := hid
      have hid2' : m.nextId = a := hid2
      have := hI.idsLt ent hent
      omega
    · intro ent hent
      show ent.1 < m.nextId + 1
      rcases List.mem_append.mp hent with hl | hr
      · have := hI.idsLt ent hl
        omega
      · simp at hr
        rw [hr]
        exact Nat.lt_succ_self _

theorem pairsOf_append (l1 l2 : List (Nat × Key × Value)) :
    pairsOf (l1 ++ l2) = pairsOf l1 ++ pairsOf l2 := by
  unfold pairsOf
  rw [List.map_append]

/-- One-step unfolding of `insert` at positive fuel. -/
theorem insertGo_succ (hasher : Key → Nat) (fuel : Nat) (m : HashMap Key Value)
    (kv : Key × Value) :
    insertGo hasher (fuel + 1) m kv =
      if (m.size + 1) * REBUILD_CONSTANT > m.data.length then
        (m.elemets ++ [(m.nextId, kv.1, kv.2)]).foldl
          (fun s e => Option.bind s (fun mm => insertGo hasher fuel mm (e.2.1, e.2.2)))
          (some { data := List.replicate
                    (EXTENDED_CONSTANT * m.data.length + EXTENDED_SHIFT) Slot.empty,
                  size := 0, elemets := [], nextId := m.nextId + 1 })
      else
        match insertLoop m.data (home hasher m.data.length kv.1) 0 m.nextId kv.1
            m.data.length with
        | none => none
        | some data' => some { data := data', size := m.size + 1,
                               elemets := m.elemets ++ [(m.nextId, kv.1, kv.2)],
                               nextId := m.nextId + 1 } := rfl

/-- Folding `insert` over a list of entries when the capacity can hold
them all (the situation inside `rebuild_` after a successful growth, and
during bulk loads): no nested rebuild triggers, and the bookkeeping
accumulates. -/
theorem rebuildFold_spec {hasher : Key → Nat} :
    ∀ (L : List (Nat × Key × Value)) (fuel : Nat) (m : HashMap Key Value),
      Inv hasher m →
      (m.size + L.length) * REBUILD_CONSTANT ≤ m.data.length →
      ∃ m', L.foldl (fun s e => Option.bind s
          (fun mm => insertGo hasher (fuel + 1) mm (e.2.1, e.2.2))) (some m) = some m' ∧
        Inv hasher m' ∧
        m'.data.length = m.data.length ∧
        m'.size = m.size + L.length ∧
        pairsOf m'.elemets = pairsOf m.elemets ++ pairsOf L ∧
        m.nextId ≤ m'.nextId := by
  intro L
  induction L with
  | nil =>
    intro fuel m hI _
    refine ⟨m, rfl, hI, rfl, by simp, ?_, by omega⟩
    simp [pairsOf]
  | cons e rest ih =>
    intro fuel m hI hcap
    unfold REBUILD_CONSTANT at hcap
    have hload : ¬ (m.size + 1) * REBUILD_CONSTANT > m.data.length := by
      unfold REBUILD_CONSTANT
      simp only [List.length_cons] at hcap
      omega
    by_cases hbound : ∃ p d i, m.data.get? p = some (.occ d i e.2.1)
    · rcases hbound with ⟨p, dk, ik, hp⟩
      rcases insertGo_noRebuild_dup hI e.2.2 hp hload fuel with ⟨hstep, hI1⟩
      rcases ih fuel _ hI1 (by
        unfold REBUILD_CONSTANT
        show (m.size + 1 + rest.length) * 3 ≤ m.data.length
        simp only [List.length_cons] at hcap
        omega) with ⟨m', hres, hI', hlen', hsize', hpairs', hnid'⟩
      have hs2 : m'.size = m.size + 1 + rest.length := hsize'
      have hn2 : m.nextId + 1 ≤ m'.nextId := hnid'
      refine ⟨m', ?_, hI', hlen', by simp only [List.length_cons]; omega, ?_, by omega⟩
      · rw [List.foldl_cons]
        show rest.foldl (fun s e => Option.bind s
            (fun mm => insertGo hasher (fuel + 1) mm (e.2.1, e.2.2)))
          (insertGo hasher (fuel + 1) m (e.2.1, e.2.2)) = some m'
        rw [hstep]
        exact hres
      · rw [hpairs']
        show pairsOf (m.elemets ++ [(m.nextId, e.2.1, e.2.2)]) ++ pairsOf rest = _
        rw [pairsOf_append, List.append_assoc]
        rfl
    · push_neg at hbound
      rcases insertGo_noRebuild_fresh hI e.2.2 (fun p d i => hbound p d i) hload fuel with
        ⟨m1, hstep, hI1, hlen1, hsize1, helems1, hnid1, _, _⟩
      rcases ih fuel m1 hI1 (by
        unfold REBUILD_CONSTANT
        rw [hlen1, hsize1]
        simp only [List.length_cons] at hcap
        omega) with ⟨m', hres, hI', hlen', hsize', hpairs', hnid'⟩
      refine ⟨m', ?_, hI', by rw [hlen', hlen1], ?_, ?_, by omega⟩
      · rw [List.foldl_cons]
        show rest.foldl (fun s e => Option.bind s
            (fun mm => insertGo hasher (fuel + 1) mm (e.2.1, e.2.2)))
          (insertGo hasher (fuel + 1) m (e.2.1, e.2.2)) = some m'
        rw [hstep]
        exact hres
      · rw [hsize', hsize1]
        simp only [List.length_cons]
        omega
      · rw [hpairs', helems1, pairsOf_append, List.append_assoc]
        rfl

/-- The full specification of a single `insert` under the invariant:
it succeeds, preserves the invariant, increments the size counter,
appends the pair to the iteration sequence, and either keeps the capacity
(no rebuild) or grows it to `2 * capacity + 3` (rebuild). -/
theorem insertGo_spec {hasher : Key → Nat} {m : HashMap Key Value} (hI : Inv hasher m)
    (k : Key) (v : Value) (fuel : Nat) :
    ∃ m', insertGo hasher (fuel + 2) m (k, v) = some m' ∧
      Inv hasher m' ∧
      m'.size = m.size + 1 ∧
      pairsOf m'.elemets = pairsOf m.elemets ++ [(k, v)] ∧
      ((m.size + 1) * REBUILD_CONSTANT > m.data.length →
        m'.data.length = EXTENDED_CONSTANT * m.data.length + EXTENDED_SHIFT) ∧
      (¬ (m.size + 1) * REBUILD_CONSTANT > m.data.length →
        m'.data.length = m.data.length) ∧
      m.nextId ≤ m'.nextId := by
  by_cases hrb : (m.size + 1) * REBUILD_CONSTANT > m.data.length
  · -- rebuild branch
    have hbase : Inv hasher
        { data := List.replicate (EXTENDED_CONSTANT * m.data.length + EXTENDED_SHIFT)
            (Slot.empty : Slot Key),
          size := 0, elemets := ([] : List (Nat × Key × Value)), nextId := m.nextId + 1 } := by
      constructor
      · rfl
      · simp
      · simp [countOcc_replicate]
      · exact TableOk_replicate _
      · intro p d i kk h
        have := get?_replicate_cases h
        cases this
      · simp
      · simp
    have hcap : (0 + (m.elemets ++ [(m.nextId, k, v)]).length) * REBUILD_CONSTANT
        ≤ (List.replicate (EXTENDED_CONSTANT * m.data.length + EXTENDED_SHIFT)
            (Slot.empty : Slot Key)).length := by
      unfold REBUILD_CONSTANT EXTENDED_CONSTANT EXTENDED_SHIFT
      rw [List.length_replicate]
      have h1 := hI.loadOk
      have h2 := hI.sizeEq
      unfold REBUILD_CONSTANT at h1
      simp only [List.length_append, List.length_cons, List.length_nil]
      omega
    rcases rebuildFold_spec (m.elemets ++ [(m.nextId, k, v)]) fuel _ hbase hcap with
      ⟨m', hres, hI', hlen', hsize', hpairs', hnid'⟩
    have hn2 : m.nextId + 1 ≤ m'.nextId := hnid'
    refine ⟨m', ?_, hI', ?_, ?_, ?_, fun h => absurd hrb h, by omega⟩
    · rw [insertGo_succ]
      rw [if_pos hrb]
      exact hres
    · have hs2 : m'.size = 0 + (m.elemets ++ [(m.nextId, k, v)]).length := hsize'
      have h3 := hI.sizeEq
      simp only [List.length_append, List.length_cons, List.length_nil] at hs2
      omega
    · rw [hpairs', pairsOf_append]
      simp [pairsOf]
    · intro _
      rw [hlen', List.length_replicate]
  · -- non-rebuild branch
    by_cases hbound : ∃ p d i, m.data.get? p = some (.occ d i k)
    · rcases hbound with ⟨p, dk, ik, hp⟩
      rcases insertGo_noRebuild_dup hI v hp hrb (fuel + 1) with ⟨hstep, hI1⟩
      refine ⟨_, hstep, hI1, rfl, ?_, fun h => absurd h hrb, fun _ => rfl, by
        show m.nextId ≤ m.nextId + 1
        omega⟩
      show pairsOf (m.elemets ++ [(m.nextId, k, v)]) = _
      rw [pairsOf_append]
      rfl
    · push_neg at hbound
      rcases insertGo_noRebuild_fresh hI v (fun p d i => hbound p d i) hrb (fuel + 1) with
        ⟨m1, hstep, hI1, hlen1, hsize1, helems1, hnid1, _, _⟩
      refine ⟨m1, hstep, hI1, hsize1, ?_, fun h => absurd h hrb, fun _ => hlen1, by omega⟩
      rw [helems1, pairsOf_append]
      rfl

theorem find?_append_left {α : Type} {p : α → Bool} {l1 : List α} {x : α}
    (h : l1.find? p = some x) (l2 : List α) : (l1 ++ l2).find? p = some x := by
  induction l1 with
  | nil => cases h
  | cons a t ih =>
    by_cases hpa : p a = true
    · rw [List.find?_cons_of_pos _ hpa] at h
      rw [List.cons_append, List.find?_cons_of_pos _ hpa]
      exact h
    · rw [List.find?_cons_of_neg _ hpa] at h
      rw [List.cons_append, List.find?_cons_of_neg _ hpa]
      exact ih h

theorem find?_append_none {α : Type} {p : α → Bool} {l1 : List α}
    (h : l1.find? p = none) (l2 : List α) : (l1 ++ l2).find? p = l2.find? p := by
  induction l1 with
  | nil => rfl
  | cons a t ih =>
    by_cases hpa : p a = true
    · rw [List.find?_cons_of_pos _ hpa] at h
      cases h
    · rw [List.find?_cons_of_neg _ hpa] at h
      rw [List.cons_append, List.find?_cons_of_neg _ hpa]
      exact ih h

/-- With pairwise-distinct keys, `find?` by key hits exactly the member
pair. -/
theorem find?_key_of_nodup {l : List (Key × Value)} (hnd : (l.map Prod.fst).Nodup)
    {k : Key} {v : Value} (hmem : (k, v) ∈ l) :
    l.find? (fun q => decide (q.1 = k)) = some (k, v) := by
  induction l with
  | nil => cases hmem
  | cons a t ih =>
    rw [List.map_cons, List.nodup_cons] at hnd
    by_cases hpa : a.1 = k
    · rcases List.mem_cons.mp hmem with rfl | hmem'
      · rw [List.find?_cons_of_pos _ (by simp)]
      · exfalso
        apply hnd.1
        rw [hpa]
        exact List.mem_map_of_mem Prod.fst hmem'
    · rcases List.mem_cons.mp hmem with rfl | hmem'
      · exact absurd rfl hpa
      · rw [List.find?_cons_of_neg _ (by simpa using hpa)]
        exact ih hnd.2 hmem'

/-- Searching the iteration pairs by key mirrors searching the ledger by
key. -/
theorem find?_pairsOf (l : List (Nat × Key × Value)) (k : Key) :
    (pairsOf l).find? (fun q => decide (q.1 = k))
      = (l.find? (fun e => decide (e.2.1 = k))).map (fun e => (e.2.1, e.2.2)) := by
  induction l with
  | nil => rfl
  | cons e t ih =>
    show ((e.2.1, e.2.2) :: pairsOf t).find? _ = _
    by_cases hpa : e.2.1 = k
    · rw [List.find?_cons_of_pos _ (by simpa using hpa),
        List.find?_cons_of_pos _ (by simpa using hpa)]
      rfl
    · rw [List.find?_cons_of_neg _ (by simpa using hpa),
        List.find?_cons_of_neg _ (by simpa using hpa)]
      exact ih

/-- With pairwise-distinct node ids, `find?` by id (the dereference of an
iterator) hits exactly the member entry. -/
theorem find?_id_of_nodup {l : List (Nat × Key × Value)} (hnd : (l.map (·.1)).Nodup)
    {i : Nat} {k : Key} {v : Value} (hmem : (i, k, v) ∈ l) :
    l.find? (fun e => decide (e.1 = i)) = some (i, k, v) := by
  induction l with
  | nil => cases hmem
  | cons a t ih =>
    rw [List.map_cons, List.nodup_cons] at hnd
    by_cases hpa : a.1 = i
    · rcases List.mem_cons.mp hmem with rfl | hmem'
      · rw [List.find?_cons_of_pos _ (by simp)]
      · exfalso
        apply hnd.1
        rw [hpa]
        exact List.mem_map_of_mem (·.1) hmem'
    · rcases List.mem_cons.mp hmem with rfl | hmem'
      · exact absurd rfl hpa
      · rw [List.find?_cons_of_neg _ (by simpa using hpa)]
        exact ih hnd.2 hmem'

/-- The duplicate-key branch of a non-rebuilding `insert` preserves the
canonical bundle: slots are untouched and the stale pair is appended
after the existing first occurrence of the key. -/
theorem canon_noRebuild_dup {hasher : Key → Nat} {m : HashMap Key Value}
    (hC : Canonical hasher m) {k : Key} (v : Value)
    {p dk ik : Nat} (hp : m.data.get? p = some (.occ dk ik k))
    (hload : ¬ (m.size + 1) * REBUILD_CONSTANT > m.data.length) (fuel : Nat) :
    ∃ m', insertGo hasher (fuel + 1) m (k, v) = some m' ∧ Canonical hasher m' ∧
      m'.data.length = m.data.length ∧ m'.size = m.size + 1 ∧
      pairsOf m'.elemets = pairsOf m.elemets ++ [(k, v)] := by
  rcases insertGo_noRebuild_dup hC.inv v hp hload fuel with ⟨hstep, hI'⟩
  refine ⟨_, hstep, ⟨hI', ?_, ?_⟩, rfl, rfl, ?_⟩
  · intro I K hocc
    rcases hC.canon I K hocc with ⟨v', hv'⟩
    exact ⟨v', find?_append_left hv' _⟩
  · intro e he
    rcases List.mem_append.mp he with he1 | he2
    · exact hC.covered e he1
    · have := List.mem_singleton.mp he2
      subst this
      exact ⟨p, dk, ik, hp⟩
  · show pairsOf (m.elemets ++ [(m.nextId, k, v)]) = _
    rw [pairsOf_append]
    rfl

/-- The fresh-key branch of a non-rebuilding `insert` preserves the
canonical bundle: the new slot binds the appended entry, which is the
first with its key because coverage rules out an orphaned earlier one. -/
theorem canon_noRebuild_fresh {hasher : Key → Nat} {m : HashMap Key Value}
    (hC : Canonical hasher m) {k : Key} (v : Value)
    (hfresh : ∀ p d i, ¬ m.data.get? p = some (.occ d i k))
    (hload : ¬ (m.size + 1) * REBUILD_CONSTANT > m.data.length) (fuel : Nat) :
    ∃ m', insertGo hasher (fuel + 1) m (k, v) = some m' ∧ Canonical hasher m' ∧
      m'.data.length = m.data.length ∧ m'.size = m.size + 1 ∧
      pairsOf m'.elemets = pairsOf m.elemets ++ [(k, v)] := by
  rcases insertGo_noRebuild_fresh hC.inv v hfresh hload fuel with
    ⟨m1, hstep, hI1, hlen1, hsize1, helems1, hnid1, -, hchar⟩
  have hnok : m.elemets.find? (fun e => decide (e.2.1 = k)) = none := by
    cases hfind : m.elemets.find? (fun e => decide (e.2.1 = k)) with
    | none => rfl
    | some e =>
      have hmem := List.mem_of_find?_eq_some hfind
      have hkey : e.2.1 = k := by
        have := List.find?_some hfind
        simpa using this
      rcases hC.covered e hmem with ⟨q, dd, I, hslot⟩
      rw [hkey] at hslot
      exact absurd hslot (hfresh q dd I)
  refine ⟨m1, hstep, ⟨hI1, ?_, ?_⟩, hlen1, hsize1, ?_⟩
  · intro I K hocc
    rcases (hchar I K).mp hocc with hold | ⟨rfl, rfl⟩
    · rcases hC.canon I K hold with ⟨v', hv'⟩
      rw [helems1]
      exact ⟨v', find?_append_left hv' _⟩
    · rw [helems1]
      refine ⟨v, ?_⟩
      rw [find?_append_none hnok, List.find?_cons_of_pos _ (by simp)]
  · intro e he
    rw [helems1] at he
    rcases List.mem_append.mp he with he1 | he2
    · rcases hC.covered e he1 with ⟨q, dd, I, hslot⟩
      rcases (hchar I e.2.1).mpr (Or.inl ⟨q, dd, hslot⟩) with ⟨q', dd', hslot'⟩
      exact ⟨q', dd', I, hslot'⟩
    · have := List.mem_singleton.mp he2
      subst this
      rcases (hchar m.nextId k).mpr (Or.inr ⟨rfl, rfl⟩) with ⟨q', dd', hslot'⟩
      exact ⟨q', dd', m.nextId, hslot'⟩
  · rw [helems1, pairsOf_append]
    rfl

/-- The canonical-bundle version of `rebuildFold_spec`: folding `insert`
over entries the capacity can hold keeps the bundle and accumulates the
pairs in order. -/
theorem canonRebuildFold {hasher : Key → Nat} :
    ∀ (L : List (Nat × Key × Value)) (fuel : Nat) (m : HashMap Key Value),
      Canonical hasher m →
      (m.size + L.length) * REBUILD_CONSTANT ≤ m.data.length →
      ∃ m', L.foldl (fun s e => Option.bind s
          (fun mm => insertGo hasher (fuel + 1) mm (e.2.1, e.2.2))) (some m) = some m' ∧
        Canonical hasher m' ∧
        m'.data.length = m.data.length ∧
        m'.size = m.size + L.length ∧
        pairsOf m'.elemets = pairsOf m.elemets ++ pairsOf L := by
  intro L
  induction L with
  | nil =>
    intro fuel m hC _
    exact ⟨m, rfl, hC, rfl, by simp, by simp [pairsOf]⟩
  | cons e rest ih =>
    intro fuel m hC hcap
    unfold REBUILD_CONSTANT at hcap
    have hload : ¬ (m.size + 1) * REBUILD_CONSTANT > m.data.length := by
      unfold REBUILD_CONSTANT
      simp only [List.length_cons] at hcap
      omega
    by_cases hbound : ∃ p d i, m.data.get? p = some (.occ d i e.2.1)
    · rcases hbound with ⟨p, dk, ik, hp⟩
      rcases canon_noRebuild_dup hC e.2.2 hp hload fuel with
        ⟨m1, hstep, hC1, hlen1, hsize1, hpairs1⟩
      rcases ih fuel m1 hC1 (by
        unfold REBUILD_CONSTANT
        rw [hlen1, hsize1]
        simp only [List.length_cons] at hcap
        omega) with ⟨m', hres, hC', hlen', hsize', hpairs'⟩
      refine ⟨m', ?_, hC', by rw [hlen', hlen1], ?_, ?_⟩
      · rw [List.foldl_cons]
        show rest.foldl (fun s e => Option.bind s
            (fun mm => insertGo hasher (fuel + 1) mm (e.2.1, e.2.2)))
          (insertGo hasher (fuel + 1) m (e.2.1, e.2.2)) = some m'
        rw [hstep]
        exact hres
      · rw [hsize', hsize1]
        simp only [List.length_cons]
        omega
      · rw [hpairs', hpairs1, List.append_assoc]
        rfl
    · push_neg at hbound
      rcases canon_noRebuild_fresh hC e.2.2 (fun p d i => hbound p d i) hload fuel with
        ⟨m1, hstep, hC1, hlen1, hsize1, hpairs1⟩
      rcases ih fuel m1 hC1 (by
        unfold REBUILD_CONSTANT
        rw [hlen1, hsize1]
        simp only [List.length_cons] at hcap
        omega) with ⟨m', hres, hC', hlen', hsize', hpairs'⟩
      refine ⟨m', ?_, hC', by rw [hlen', hlen1], ?_, ?_⟩
      · rw [List.foldl_cons]
        show rest.foldl (fun s e => Option.bind s
            (fun mm => insertGo hasher (fuel + 1) mm (e.2.1, e.2.2)))
          (insertGo hasher (fuel + 1) m (e.2.1, e.2.2)) = some m'
        rw [hstep]
        exact hres
      · rw [hsize', hsize1]
        simp only [List.length_cons]
        omega
      · rw [hpairs', hpairs1, List.append_assoc]
        rfl

/-- The canonical bundle holds for a freshly rebuilt empty table with an
empty ledger. -/
theorem canonical_empty {hasher : Key → Nat} (n nid : Nat) :
    Canonical hasher
      { data := List.replicate n (Slot.empty : Slot Key),
        size := 0, elemets := ([] : List (Nat × Key × Value)), nextId := nid } := by
  refine ⟨⟨rfl, by simp [countOcc_replicate, REBUILD_CONSTANT],
      by simp [countOcc_replicate], TableOk_replicate _, ?_, by simp, ?_⟩, ?_, ?_⟩
  · intro p d i kk h
    have := get?_replicate_cases h
    cases this
  · intro e he
    cases he
  · intro I K hocc
    rcases hocc with ⟨p, dd, h⟩
    have := get?_replicate_cases h
    cases this
  · intro e he
    cases he

/-- The canonical-bundle version of `insertGo_spec`: an `insert` on a
bundle state (with rebuild fuel to spare) succeeds, keeps the bundle,
increments the size and appends the pair. -/
theorem insertCanonGo_spec {hasher : Key → Nat} {m : HashMap Key Value}
    (hC : Canonical hasher m) (k : Key) (v : Value) (fuel : Nat) :
    ∃ m', insertGo hasher (fuel + 2) m (k, v) = some m' ∧
      Canonical hasher m' ∧
      m'.size = m.size + 1 ∧
      pairsOf m'.elemets = pairsOf m.elemets ++ [(k, v)] := by
  by_cases hrb : (m.size + 1) * REBUILD_CONSTANT > m.data.length
  · have hbase : Canonical hasher
        { data := List.replicate (EXTENDED_CONSTANT * m.data.length + EXTENDED_SHIFT)
            (Slot.empty : Slot Key),
          size := 0, elemets := ([] : List (Nat × Key × Value)), nextId := m.nextId + 1 } :=
      canonical_empty _ _
    have hcap : ((0 : Nat) + (m.elemets ++ [(m.nextId, k, v)]).length) * REBUILD_CONSTANT
        ≤ (List.replicate (EXTENDED_CONSTANT * m.data.length + EXTENDED_SHIFT)
            (Slot.empty : Slot Key)).length := by
      unfold REBUILD_CONSTANT EXTENDED_CONSTANT EXTENDED_SHIFT
      rw [List.length_replicate]
      have h1 := hC.inv.loadOk
      have h2 := hC.inv.sizeEq
      unfold REBUILD_CONSTANT at h1
      simp only [List.length_append, List.length_cons, List.length_nil]
      omega
    rcases canonRebuildFold (m.elemets ++ [(m.nextId, k, v)]) fuel _ hbase hcap with
      ⟨m', hres, hC', hlen', hsize', hpairs'⟩
    refine ⟨m', ?_, hC', ?_, ?_⟩
    · rw [insertGo_succ, if_pos hrb]
      exact hres
    · have hs2 : m'.size = 0 + (m.elemets ++ [(m.nextId, k, v)]).length := hsize'
      have h3 := hC.inv.sizeEq
      simp only [List.length_append, List.length_cons, List.length_nil] at hs2
      omega
    · rw [hpairs', pairsOf_append]
      simp [pairsOf]
  · by_cases hbound : ∃ p d i, m.data.get? p = some (.occ d i k)
    · rcases hbound with ⟨p, dk, ik, hp⟩
      rcases canon_noRebuild_dup hC v hp hrb (fuel + 1) with
        ⟨m1, hstep, hC1, -, hsize1, hpairs1⟩
      exact ⟨m1, hstep, hC1, hsize1, hpairs1⟩
    · push_neg at hbound
      rcases canon_noRebuild_fresh hC v (fun p d i => hbound p d i) hrb (fuel + 1) with
        ⟨m1, hstep, hC1, -, hsize1, hpairs1⟩
      exact ⟨m1, hstep, hC1, hsize1, hpairs1⟩

/-- The Robin Hood walk of `insert` terminates on any table (also one
left ill-formed by a truncating `reserve_`) as soon as an empty slot is
reachable: it stops at a matching key or at the first empty slot, and it
occupies at most one previously-empty slot. -/
theorem insertLoop_term {Key : Type} [DecidableEq Key] :
    ∀ (fuel : Nat) (data : List (Slot Key)) (s dist cid : Nat) (ckey : Key) (E : Nat),
      s < data.length → E < data.length →
      data.get? ((s + E) % data.length) = some Slot.empty →
      (∀ j, j < E → ∃ d id k, data.get? ((s + j) % data.length) = some (.occ d id k)) →
      E < fuel →
      ∃ data', insertLoop data s dist cid ckey fuel = some data' ∧
        data'.length = data.length ∧ countOcc data' ≤ countOcc data + 1 := by
  intro fuel
  induction fuel with
  | zero => intro data s dist cid ckey E _ _ _ _ h; omega
  | succ fuel ih =>
    intro data s dist cid ckey E hs hE hemp hoccs hfuel
    have hn0 : 0 < data.length := by omega
    have hsmod : s % data.length = s := Nat.mod_eq_of_lt hs
    by_cases hE0 : E = 0
    · subst hE0
      rw [Nat.add_zero, hsmod] at hemp
      refine ⟨data.set s (.occ dist cid ckey), ?_, List.length_set data _ _, ?_⟩
      · simp only [insertLoop, hemp]
      · rw [countOcc_set_occ_of_empty hemp]
    · rcases hoccs 0 (by omega) with ⟨d, id, k, hocc⟩
      rw [Nat.add_zero, hsmod] at hocc
      by_cases hkey : k = ckey
      · refine ⟨data, ?_, rfl, by omega⟩
        simp only [insertLoop, hocc]
        rw [if_pos hkey]
      · have havoid : ∀ t, 0 < t → t < data.length → (s + t) % data.length ≠ s := by
          intro t ht htl hcontra
          have h1 : (s + t) % data.length = (s + 0) % data.length := by
            rw [Nat.add_zero, hsmod]
            exact hcontra
          have := offset_inj htl hn0 h1
          omega
        have hs1 : (s + 1) % data.length < data.length := Nat.mod_lt _ hn0
        have hshift : ∀ j : Nat, ((s + 1) % data.length + j) % data.length
            = (s + (1 + j)) % data.length := by
          intro j
          rw [Nat.mod_add_mod, Nat.add_assoc]
        by_cases hswap : d < dist
        · have hlen1 : (data.set s (Slot.occ dist cid ckey)).length = data.length :=
            List.length_set data _ _
          have hg1ne : ∀ q, q ≠ s →
              (data.set s (Slot.occ dist cid ckey)).get? q = data.get? q := by
            intro q hq
            rw [get?_set_ne _ s q _ (fun hh => hq hh.symm)]
          rcases ih (data.set s (Slot.occ dist cid ckey)) ((s + 1) % data.length)
            (d + 1) id k (E - 1)
            (by rw [hlen1]; exact hs1)
            (by rw [hlen1]; omega)
            (by
              rw [hlen1, hshift]
              have h1 : 1 + (E - 1) = E := by omega
              rw [h1, hg1ne _ (havoid E (by omega) hE)]
              exact hemp)
            (by
              intro j hj
              rw [hlen1, hshift]
              rcases hoccs (1 + j) (by omega) with ⟨d', id', k', h'⟩
              exact ⟨d', id', k', by
                rw [hg1ne _ (havoid (1 + j) (by omega) (by omega))]
                exact h'⟩)
            (by omega) with ⟨data', hres, hlen', hcnt'⟩
          refine ⟨data', ?_, by rw [hlen', hlen1], ?_⟩
          · simp only [insertLoop, hocc]
            rw [if_neg hkey, if_pos hswap, next_eq_mod hs]
            exact hres
          · have hcnt1 : countOcc (data.set s (Slot.occ dist cid ckey)) = countOcc data :=
              countOcc_set_occ_of_occ hocc
            omega
        · rcases ih data ((s + 1) % data.length) (dist + 1) cid ckey (E - 1)
            hs1 (by omega)
            (by
              rw [hshift]
              have h1 : 1 + (E - 1) = E := by omega
              rw [h1]
              exact hemp)
            (by
              intro j hj
              rw [hshift]
              exact hoccs (1 + j) (by omega))
            (by omega) with ⟨data', hres, hlen', hcnt'⟩
          refine ⟨data', ?_, hlen', by omega⟩
          simp only [insertLoop, hocc]
          rw [if_neg hkey, if_neg hswap, next_eq_mod hs]
          exact hres

/-- Folding `insert` with fixed rebuild fuel over any entry list from a
canonical-bundle state: every step succeeds (rebuilding as needed) and
the pairs accumulate in order. -/
theorem canonFoldAll {hasher : Key → Nat} :
    ∀ (L : List (Nat × Key × Value)) (fuel : Nat) (m : HashMap Key Value),
      Canonical hasher m →
      ∃ m', L.foldl (fun s e => Option.bind s
          (fun mm => insertGo hasher (fuel + 2) mm (e.2.1, e.2.2))) (some m) = some m' ∧
        Canonical hasher m' ∧ m'.size = m.size + L.length ∧
        pairsOf m'.elemets = pairsOf m.elemets ++ pairsOf L := by
  intro L
  induction L with
  | nil =>
    intro fuel m hC
    exact ⟨m, rfl, hC, by simp, by simp [pairsOf]⟩
  | cons e rest ih =>
    intro fuel m hC
    rcases insertCanonGo_spec hC e.2.1 e.2.2 fuel with ⟨m1, hstep, hC1, hsize1, hpairs1⟩
    rcases ih fuel m1 hC1 with ⟨m', hres, hC', hsize', hpairs'⟩
    refine ⟨m', ?_, hC', ?_, ?_⟩
    · rw [List.foldl_cons]
      show rest.foldl (fun s e => Option.bind s
          (fun mm => insertGo hasher (fuel + 2) mm (e.2.1, e.2.2)))
        (insertGo hasher (fuel + 2) m (e.2.1, e.2.2)) = some m'
      rw [hstep]
      exact hres
    · rw [hsize', hsize1]
      simp only [List.length_cons]
      omega
    · rw [hpairs', hpairs1, List.append_assoc]
      rfl

/-- One public `insert` on a possibly stale state (the size counter
matches the ledger and the occupied count is below it, but the table may
be truncated garbage): the insert succeeds, appends its pair and
increments the size, and the result is either again such a stale
no-rebuild state whose load now satisfies the ceiling, or — as soon as a
rebuild runs — a canonical-bundle state. -/
theorem insert_stale_step {hasher : Key → Nat} {m : HashMap Key Value}
    (hsz : m.size = m.elemets.length) (hocc : countOcc m.data ≤ m.size)
    (kv : Key × Value) :
    ∃ m', HashMap.insert hasher m kv = some m' ∧
      m'.size = m.size + 1 ∧
      pairsOf m'.elemets = pairsOf m.elemets ++ [(kv.1, kv.2)] ∧
      ((m'.data.length = m.data.length ∧ m'.size = m'.elemets.length ∧
        countOcc m'.data ≤ m'.size ∧ REBUILD_CONSTANT * m'.size ≤ m'.data.length) ∨
       Canonical hasher m') := by
  by_cases hrb : (m.size + 1) * REBUILD_CONSTANT > m.data.length
  · -- rebuild: detach the ledger and re-insert it into a fresh table
    have hbase : Canonical hasher
        { data := List.replicate (EXTENDED_CONSTANT * m.data.length + EXTENDED_SHIFT)
            (Slot.empty : Slot Key),
          size := 0, elemets := ([] : List (Nat × Key × Value)), nextId := m.nextId + 1 } :=
      canonical_empty _ _
    cases hms : m.size with
    | zero =>
      have helems : m.elemets = [] := by
        have := hsz
        rw [hms] at this
        exact List.length_eq_zero.mp this.symm
      have hfresh : ∀ p d i, ¬ (List.replicate
          (EXTENDED_CONSTANT * m.data.length + EXTENDED_SHIFT)
          (Slot.empty : Slot Key)).get? p = some (.occ d i kv.1) := by
        intro p d i h
        have := get?_replicate_cases h
        cases this
      rcases canon_noRebuild_fresh hbase kv.2 hfresh (by
          show ¬ (0 + 1) * REBUILD_CONSTANT > (List.replicate
            (EXTENDED_CONSTANT * m.data.length + EXTENDED_SHIFT)
            (Slot.empty : Slot Key)).length
          rw [List.length_replicate]
          unfold REBUILD_CONSTANT EXTENDED_CONSTANT EXTENDED_SHIFT
          omega) (m.size) with ⟨m1, hstep, hC1, -, hsize1, hpairs1⟩
      refine ⟨m1, ?_, ?_, ?_, Or.inr hC1⟩
      · show insertGo hasher (m.size + 1 + 1) m kv = some m1
        rw [insertGo_succ, if_pos hrb, helems]
        exact hstep
      · rw [hsize1]
      · rw [hpairs1, helems]
    | succ s' =>
      have hcap' := canonFoldAll (m.elemets ++ [(m.nextId, kv.1, kv.2)]) s' _ hbase
      rcases hcap' with ⟨m', hfold, hC', hsize', hpairs'⟩
      refine ⟨m', ?_, ?_, ?_, Or.inr hC'⟩
      · show insertGo hasher (m.size + 1 + 1) m kv = some m'
        rw [insertGo_succ, if_pos hrb]
        have hfuel : m.size + 1 = s' + 2 := by omega
        rw [hfuel]
        exact hfold
      · have h2 : m'.size = 0 + (m.elemets ++ [(m.nextId, kv.1, kv.2)]).length := hsize'
        simp only [List.length_append, List.length_cons, List.length_nil] at h2
        omega
      · rw [hpairs', pairsOf_append]
        simp [pairsOf]
  · -- no rebuild: the walk terminates at a matching key or an empty slot
    have hn3 : REBUILD_CONSTANT * (m.size + 1) ≤ m.data.length := by
      unfold REBUILD_CONSTANT at hrb ⊢
      omega
    have hn0 : 0 < m.data.length := by
      unfold REBUILD_CONSTANT at hn3
      omega
    have hlt : countOcc m.data < m.data.length := by
      unfold REBUILD_CONSTANT at hn3
      omega
    have hH : home hasher m.data.length kv.1 < m.data.length := Nat.mod_lt _ hn0
    rcases first_empty_exists hlt hH with ⟨E, hE, hemp, hoccs⟩
    rcases insertLoop_term m.data.length m.data (home hasher m.data.length kv.1) 0
      m.nextId kv.1 E hH hE hemp hoccs hE with ⟨data', hres, hlen', hcnt'⟩
    refine ⟨{ data := data', size := m.size + 1,
              elemets := m.elemets ++ [(m.nextId, kv.1, kv.2)], nextId := m.nextId + 1 },
      ?_, rfl, ?_, Or.inl ⟨hlen', ?_, ?_, ?_⟩⟩
    · show insertGo hasher (m.size + 1 + 1) m kv = _
      rw [insertGo_succ, if_neg hrb, hres]
    · rw [pairsOf_append]
      rfl
    · show m.size + 1 = (m.elemets ++ [(m.nextId, kv.1, kv.2)]).length
      simp only [List.length_append, List.length_cons, List.length_nil]
      omega
    · show countOcc data' ≤ m.size + 1
      omega
    · show REBUILD_CONSTANT * (m.size + 1) ≤ data'.length
      rw [hlen']
      exact hn3

/-- The insert loop of copy assignment: starting from the reserved
(possibly stale) destination state, every insert succeeds, the pairs
accumulate in order, and the final state is either still a stale
no-rebuild state satisfying the load ceiling (impossible once enough
entries went in) or a canonical-bundle state. -/
theorem assignFold_spec {hasher : Key → Nat} {cap : Nat} :
    ∀ (L : List (Nat × Key × Value)) (m : HashMap Key Value),
      ((m.data.length = cap ∧ m.size = m.elemets.length ∧ countOcc m.data ≤ m.size) ∨
        Canonical hasher m) →
      ∃ m', L.foldl (fun s e => Option.bind s
          (fun mm => HashMap.insert hasher mm (e.2.1, e.2.2))) (some m) = some m' ∧
        m'.size = m.size + L.length ∧
        pairsOf m'.elemets = pairsOf m.elemets ++ pairsOf L ∧
        ((m'.data.length = cap ∧ m'.size = m'.elemets.length ∧
          countOcc m'.data ≤ m'.size ∧
          (L ≠ [] → REBUILD_CONSTANT * m'.size ≤ cap)) ∨
          Canonical hasher m') := by
  intro L
  induction L with
  | nil =>
    intro m hm
    refine ⟨m, rfl, by simp, by simp [pairsOf], ?_⟩
    rcases hm with ⟨h1, h2, h3⟩ | hC
    · exact Or.inl ⟨h1, h2, h3, fun h => absurd rfl h⟩
    · exact Or.inr hC
  | cons e rest ih =>
    intro m hm
    rcases hm with ⟨hlen, hsz, hocc⟩ | hC
    · rcases insert_stale_step hsz hocc (e.2.1, e.2.2) with ⟨m1, hstep, hsize1, hpairs1, hnext⟩
      have hcont : ∀ hm1, ∃ m', rest.foldl (fun s e => Option.bind s
              (fun mm => HashMap.insert hasher mm (e.2.1, e.2.2))) (some m1) = some m' ∧
            m'.size = m1.size + rest.length ∧
            pairsOf m'.elemets = pairsOf m1.elemets ++ pairsOf rest ∧
            ((m'.data.length = cap ∧ m'.size = m'.elemets.length ∧
              countOcc m'.data ≤ m'.size ∧
              (rest ≠ [] → REBUILD_CONSTANT * m'.size ≤ cap)) ∨
              Canonical hasher m') := fun hm1 => ih m1 hm1
      have hm1ok : ((m1.data.length = cap ∧ m1.size = m1.elemets.length ∧
          countOcc m1.data ≤ m1.size) ∨ Canonical hasher m1) := by
        rcases hnext with ⟨g1, g2, g3, -⟩ | hC1
        · exact Or.inl ⟨by rw [g1, hlen], g2, g3⟩
        · exact Or.inr hC1
      rcases hcont hm1ok with ⟨m', hres, hsize', hpairs', hfin⟩
      refine ⟨m', ?_, ?_, ?_, ?_⟩
      · rw [List.foldl_cons]
        show rest.foldl (fun s e => Option.bind s
            (fun mm => HashMap.insert hasher mm (e.2.1, e.2.2)))
          (HashMap.insert hasher m (e.2.1, e.2.2)) = some m'
        rw [hstep]
        exact hres
      · rw [hsize', hsize1]
        simp only [List.length_cons]
        omega
      · rw [hpairs', hpairs1, List.append_assoc]
        rfl
      · rcases hfin with ⟨g1, g2, g3, g4⟩ | hCf
        · refine Or.inl ⟨g1, g2, g3, fun _ => ?_⟩
          by_cases hrest : rest = []
          · subst hrest
            have hmm : some m1 = some m' := hres
            cases hmm
            rcases hnext with ⟨k1, -, -, k4⟩ | hC1
            · rw [← hlen, ← k1]
              exact k4
            · -- a canonical state cannot be in the stale branch here, but the
              -- load bound follows from its invariant and capacity equality
              have := hC1.inv.loadOk
              rw [← g1]
              exact this
          · exact g4 hrest
        · exact Or.inr hCf
    · rcases insertCanonGo_spec hC e.2.1 e.2.2 m.size with ⟨m1, hstep, hC1, hsize1, hpairs1⟩
      rcases ih m1 (Or.inr hC1) with ⟨m', hres, hsize', hpairs', hfin⟩
      refine ⟨m', ?_, ?_, ?_, ?_⟩
      · rw [List.foldl_cons]
        show rest.foldl (fun s e => Option.bind s
            (fun mm => HashMap.insert hasher mm (e.2.1, e.2.2)))
          (HashMap.insert hasher m (e.2.1, e.2.2)) = some m'
        have hstep' : HashMap.insert hasher m (e.2.1, e.2.2) = some m1 := hstep
        rw [hstep']
        exact hres
      · rw [hsize', hsize1]
        simp only [List.length_cons]
        omega
      · rw [hpairs', hpairs1, List.append_assoc]
        rfl
      · rcases hfin with ⟨g1, g2, g3, g4⟩ | hCf
        · refine Or.inl ⟨g1, g2, g3, fun _ => ?_⟩
          by_cases hrest : rest = []
          · subst hrest
            have hmm : some m1 = some m' := hres
            cases hmm
            have := hC1.inv.loadOk
            rw [← g1]
            exact this
          · exact g4 hrest
        · exact Or.inr hCf

/-- The default-constructed map satisfies the invariant. -/
theorem Inv_default {hasher : Key → Nat} : Inv hasher (HashMap.defaultMap Key Value) := by
  constructor
  · rfl
  · simp [HashMap.defaultMap]
  · simp [HashMap.defaultMap, countOcc]
  · constructor
    · intro p d i k h
      cases h
    · intro p q d d' i i' k h1 h2
      cases h1
    · intro p d i k h hd
      cases h
  · intro p d i k h
    cases h
  · simp [HashMap.defaultMap]
  · intro e he
    cases he

/-- A sequence of `insert` calls from any invariant state: all succeed,
the size counter grows by the number of calls, and the iteration sequence
accumulates the inserted pairs in call order (this holds for every input
list; duplicate keys also append, which is the C1 slip). -/
theorem insertAll_spec {hasher : Key → Nat} :
    ∀ (l : List (Key × Value)) (m : HashMap Key Value), Inv hasher m →
      ∃ m', insertAll hasher m l = some m' ∧ Inv hasher m' ∧
        m'.size = m.size + l.length ∧
        pairsOf m'.elemets = pairsOf m.elemets ++ l := by
  intro l
  induction l with
  | nil =>
    intro m hI
    exact ⟨m, rfl, hI, by simp, by simp⟩
  | cons kv rest ih =>
    intro m hI
    rcases insertGo_spec hI kv.1 kv.2 m.size with ⟨m1, hstep, hI1, hsize1, hpairs1, _, _, _⟩
    rcases ih m1 hI1 with ⟨m', hres, hI', hsize', hpairs'⟩
    refine ⟨m', ?_, hI', ?_, ?_⟩
    · unfold insertAll
      rw [List.foldl_cons]
      show rest.foldl (fun s kv => Option.bind s (fun mm => HashMap.insert hasher mm kv))
        (HashMap.insert hasher m kv) = some m'
      have hstep' : HashMap.insert hasher m kv = some m1 := hstep
      rw [hstep']
      exact hres
    · rw [hsize', hsize1]
      simp only [List.length_cons]
      omega
    · rw [hpairs', hpairs1, List.append_assoc]
      rfl

/-- Main lemma on the backward-shift loop of `erase`, for a state in
which the freed slot `P` is empty, the Robin Hood conditions hold
everywhere except that the chain condition is suspended at the slot after
`P`, and a guard records what the chain condition at `P`'s two removed
neighbours still provides.  The loop restores full well-formedness
without changing the occupancy count or the set of stored entries.
`E` bounds the walk: an empty slot at offset `E` after `P + 1` with all
smaller offsets occupied. -/
theorem shiftLoop_aux {hasher : Key → Nat} :
    ∀ (fuel : Nat) (dataC : List (Slot Key)) (P E : Nat),
      P < dataC.length →
      dataC.get? P = some Slot.empty →
      countOcc dataC + 1 < dataC.length →
      (∀ p d i k, dataC.get? p = some (.occ d i k) →
        d < dataC.length ∧ p = (home hasher dataC.length k + d) % dataC.length) →
      (∀ p q d d' i i' k, dataC.get? p = some (.occ d i k) →
        dataC.get? q = some (.occ d' i' k) → p = q) →
      (∀ r d i k, r ≠ (P + 1) % dataC.length → dataC.get? r = some (.occ d i k) → 0 < d →
        ∃ d' i' k', dataC.get? ((r + dataC.length - 1) % dataC.length)
          = some (.occ d' i' k') ∧ d ≤ d' + 1) →
      (∀ e i k, dataC.get? ((P + 1) % dataC.length) = some (.occ e i k) → 1 < e →
        ∃ dR iR kR, dataC.get? ((P + dataC.length - 1) % dataC.length)
          = some (.occ dR iR kR) ∧ e - 1 ≤ dR + 1) →
      E < dataC.length →
      dataC.get? (((P + 1) % dataC.length + E) % dataC.length) = some Slot.empty →
      (∀ j, j < E → ∃ d i k,
        dataC.get? (((P + 1) % dataC.length + j) % dataC.length) = some (.occ d i k)) →
      E < fuel →
      ∃ data2, shiftLoop dataC P ((P + 1) % dataC.length) fuel = some data2 ∧
        data2.length = dataC.length ∧
        TableOk hasher data2 ∧
        countOcc data2 = countOcc dataC ∧
        (∀ I K, (∃ p dd, data2.get? p = some (.occ dd I K)) ↔
          (∃ p dd, dataC.get? p = some (.occ dd I K))) := by
  intro fuel
  induction fuel with
  | zero => intro dataC P E _ _ _ _ _ _ _ _ _ _ h; omega
  | succ fuel ih =>
    intro dataC P E hP hPemp hcnt hdisp hinj hchain hguard hE hemp hoccs hfuel
    have hn0 : 0 < dataC.length := by omega
    have hQ : (P + 1) % dataC.length < dataC.length := Nat.mod_lt _ hn0
    rcases get?_some_of_lt dataC hQ with ⟨slQ, hslQ⟩
    have hfullOk : slQ = Slot.empty ∨
        (∃ d i k, slQ = Slot.occ d i k ∧ d = 0) →
        TableOk hasher dataC := by
      intro hstop
      constructor
      · exact hdisp
      · exact hinj
      · intro r d i k h hd
        by_cases hr : r = (P + 1) % dataC.length
        · subst hr
          rw [hslQ] at h
          rcases hstop with hset | ⟨d', i', k', hset, hd0⟩
          · rw [hset] at h
            cases h
          · rw [hset] at h
            cases h
            omega
        · exact hchain r d i k hr h hd
    cases slQ with
    | empty =>
      refine ⟨dataC, ?_, rfl, hfullOk (Or.inl rfl), rfl, fun I K => Iff.rfl⟩
      simp only [shiftLoop, hslQ]
    | occ d0 i0 k0 =>
      by_cases hd0 : 0 < d0
      · -- move the occupant back into the freed slot and continue
        have hPQ : P ≠ (P + 1) % dataC.length := by
          intro hcontra
          have h1 : (P + 0) % dataC.length = (P + 1) % dataC.length := by
            rw [Nat.add_zero, Nat.mod_eq_of_lt hP]
            exact hcontra
          have := offset_inj (by omega : (0:Nat) < dataC.length) (by omega) h1
          omega
        have hcnt1 : 0 < countOcc dataC := by
          apply List.countP_pos_iff.mpr
          exact ⟨_, List.get?_mem hslQ, rfl⟩
        have hn2 : 2 < dataC.length := by omega
        have hEpos : 0 < E := by
          rcases Nat.eq_zero_or_pos E with h0 | h
          · subst h0
            have hx : ((P + 1) % dataC.length + 0) % dataC.length
                = (P + 1) % dataC.length := by
              rw [Nat.add_zero, Nat.mod_eq_of_lt hQ]
            rw [hx, hslQ] at hemp
            cases hemp
          · exact h
        have hEcnt : E ≤ countOcc dataC :=
          occupied_prefix_le_countOcc hn0 (by omega) hoccs
        have hEn2 : E ≤ dataC.length - 2 := by omega
        -- the new table
        set Q := (P + 1) % dataC.length with hQdef
        have hprevQ : (Q + dataC.length - 1) % dataC.length = P := by
          have h1 := prev_mod hn0 P 0
          simp only [Nat.add_zero, Nat.mod_eq_of_lt hP] at h1
          rw [hQdef]
          exact h1
        set dataC' := (dataC.set P (.occ (d0 - 1) i0 k0)).set Q Slot.empty with hdataC'
        have hlen' : dataC'.length = dataC.length := by
          rw [hdataC', List.length_set, List.length_set]
        have hget'Q : dataC'.get? Q = some Slot.empty := by
          rw [hdataC']
          exact get?_set_self _ Q _ (by rw [List.length_set]; omega)
        have hget'P : dataC'.get? P = some (.occ (d0 - 1) i0 k0) := by
          rw [hdataC', get?_set_ne _ Q P _ (fun hh => hPQ hh.symm)]
          exact get?_set_self _ P _ (by omega)
        have hget'ne : ∀ q, q ≠ P → q ≠ Q → dataC'.get? q = dataC.get? q := by
          intro q hq1 hq2
          rw [hdataC', get?_set_ne _ Q q _ (fun hh => hq2 hh.symm),
            get?_set_ne _ P q _ (fun hh => hq1 hh.symm)]
        have hdispQ := hdisp Q d0 i0 k0 hslQ
        -- positions around the cluster
        have hQ'lt : (Q + 1) % dataC.length < dataC.length := Nat.mod_lt _ hn0
        have hQ'neP : (Q + 1) % dataC.length ≠ P := by
          intro hcontra
          have h2 : ((P + 1) % dataC.length + 1) % dataC.length = (P + 2) % dataC.length := by
            rw [Nat.mod_add_mod]
          have h1 : (P + 2) % dataC.length = (P + 0) % dataC.length := by
            simp only [Nat.add_zero, Nat.mod_eq_of_lt hP]
            rw [← h2, ← hQdef]
            exact hcontra
          have := offset_inj (by omega : 2 < dataC.length) (by omega) h1
          omega
        have hQ'neQ : (Q + 1) % dataC.length ≠ Q := by
          intro hcontra
          have h1 : (Q + 1) % dataC.length = (Q + 0) % dataC.length := by
            simp only [Nat.add_zero, Nat.mod_eq_of_lt hQ]
            exact hcontra
          have := offset_inj (by omega : 1 < dataC.length) (by omega) h1
          omega
        have hRneP : (P + dataC.length - 1) % dataC.length = P → False := by
          intro hcontra
          have h1 : (P + (dataC.length - 1)) % dataC.length = (P + 0) % dataC.length := by
            rw [Nat.add_zero, Nat.mod_eq_of_lt hP]
            have hx : P + dataC.length - 1 = P + (dataC.length - 1) := by omega
            rw [← hx]
            exact hcontra
          have := offset_inj (by omega : dataC.length - 1 < dataC.length) (by omega) h1
          omega
        have hRneQ : (P + dataC.length - 1) % dataC.length = Q → False := by
          intro hcontra
          have h1 : (P + (dataC.length - 1)) % dataC.length = (P + 1) % dataC.length := by
            have hx : P + dataC.length - 1 = P + (dataC.length - 1) := by omega
            rw [← hx]
            rw [hcontra, hQdef]
          have := offset_inj (by omega : dataC.length - 1 < dataC.length)
            (by omega : 1 < dataC.length) h1
          omega
        -- invariant hypotheses for the recursive call
        have hcnt' : countOcc dataC' = countOcc dataC := by
          have h1 : countOcc (dataC.set P (.occ (d0 - 1) i0 k0)) = countOcc dataC + 1 :=
            countOcc_set_occ_of_empty hPemp
          have h2 : (dataC.set P (.occ (d0 - 1) i0 k0)).get? Q = some (.occ d0 i0 k0) := by
            rw [get?_set_ne _ P Q _ hPQ]
            exact hslQ
          have h3 := countOcc_set_empty_of_occ h2
          rw [hdataC']
          omega
        have hdisp' : ∀ p d i k, dataC'.get? p = some (.occ d i k) →
            d < dataC'.length ∧ p = (home hasher dataC'.length k + d) % dataC'.length := by
          intro p d i k h
          rw [hlen']
          by_cases hp : p = Q
          · subst hp
            rw [hget'Q] at h
            cases h
          · by_cases hp2 : p = P
            · subst hp2
              rw [hget'P] at h
              cases h
              refine ⟨by omega, ?_⟩
              have hstep : d0 - 1 + 1 = d0 := by omega
              have hpm := prev_mod hn0 (home hasher dataC.length k0) (d0 - 1)
              rw [hstep] at hpm
              rw [← hpm, ← hdispQ.2, hprevQ]
            · rw [hget'ne p hp2 hp] at h
              exact hdisp p d i k h
        have hinj' : ∀ p q d d' i i' k, dataC'.get? p = some (.occ d i k) →
            dataC'.get? q = some (.occ d' i' k) → p = q := by
          intro p q d d' i i' k h1 h2
          have hclassify : ∀ r dd ii, dataC'.get? r = some (.occ dd ii k) →
              (r = P ∧ k = k0) ∨ (r ≠ P ∧ r ≠ Q ∧ dataC.get? r = some (.occ dd ii k)) := by
            intro r dd ii h
            by_cases hr : r = Q
            · subst hr
              rw [hget'Q] at h
              cases h
            · by_cases hr2 : r = P
              · subst hr2
                rw [hget'P] at h
                cases h
                exact Or.inl ⟨rfl, rfl⟩
              · rw [hget'ne r hr2 hr] at h
                exact Or.inr ⟨hr2, hr, h⟩
          rcases hclassify p _ _ h1 with ⟨hp, hk⟩ | ⟨hp1, hp2, hpold⟩ <;>
            rcases hclassify q _ _ h2 with ⟨hq, hk'⟩ | ⟨hq1, hq2, hqold⟩
          · rw [hp, hq]
          · subst hk
            have := hinj q Q _ _ _ _ _ hqold hslQ
            exact absurd this hq2
          · subst hk'
            have := hinj p Q _ _ _ _ _ hpold hslQ
            exact absurd this hp2
          · exact hinj p q _ _ _ _ _ hpold hqold
        have hchain' : ∀ r d i k, r ≠ (Q + 1) % dataC.length →
            dataC'.get? r = some (.occ d i k) → 0 < d →
            ∃ d' i' k', dataC'.get? ((r + dataC.length - 1) % dataC.length)
              = some (.occ d' i' k') ∧ d ≤ d' + 1 := by
          intro r d i k hrQ' h hd
          by_cases hr : r = Q
          · subst hr
            rw [hget'Q] at h
            cases h
          · by_cases hr2 : r = P
            · subst hr2
              rw [hget'P] at h
              cases h
              rcases hguard d0 i0 k0 hslQ (by omega) with ⟨dR, iR, kR, hR, hle⟩
              refine ⟨dR, iR, kR, ?_, by omega⟩
              rw [hget'ne _ (fun hh => hRneP hh) (fun hh => hRneQ hh)]
              exact hR
            · rw [hget'ne r hr2 hr] at h
              have hprevP : (r + dataC.length - 1) % dataC.length = P → r = Q := by
                intro hcontra
                have h1 : ((P + 1) % dataC.length + dataC.length - 1) % dataC.length = P := by
                  rw [← hQdef]
                  exact hprevQ
                have hrlt : r < dataC.length := lt_of_get?_some h
                have h2 : (r + dataC.length - 1) % dataC.length
                    = ((P + 1) % dataC.length + dataC.length - 1) % dataC.length := by
                  rw [h1, hcontra]
                have hx1 : r + dataC.length - 1 = r + (dataC.length - 1) := by omega
                have hx2 : (P + 1) % dataC.length + dataC.length - 1
                    = (P + 1) % dataC.length + (dataC.length - 1) := by omega
                rw [hx1, hx2] at h2
                have h3 : (r + (dataC.length - 1)) % dataC.length
                    = ((P + 1) % dataC.length + (dataC.length - 1)) % dataC.length := h2
                -- cancel the common offset n-1 on both sides
                have h4 : ((dataC.length - 1) + r) % dataC.length
                    = ((dataC.length - 1) + (P + 1) % dataC.length) % dataC.length := by
                  rw [Nat.add_comm (dataC.length - 1) r,
                    Nat.add_comm (dataC.length - 1) ((P + 1) % dataC.length)]
                  exact h3
                have := offset_inj hrlt hQ h4
                rw [this, hQdef]
              have hprevQ2 : (r + dataC.length - 1) % dataC.length = Q →
                  r = (Q + 1) % dataC.length := by
                intro hcontra
                have hrlt : r < dataC.length := lt_of_get?_some h
                have h1 : ((Q + 1) % dataC.length + dataC.length - 1) % dataC.length = Q := by
                  have := prev_mod hn0 Q 0
                  simp only [Nat.add_zero, Nat.mod_eq_of_lt hQ] at this
                  exact this
                have h2 : (r + dataC.length - 1) % dataC.length
                    = ((Q + 1) % dataC.length + dataC.length - 1) % dataC.length := by
                  rw [h1, hcontra]
                have hx1 : r + dataC.length - 1 = r + (dataC.length - 1) := by omega
                have hx2 : (Q + 1) % dataC.length + dataC.length - 1
                    = (Q + 1) % dataC.length + (dataC.length - 1) := by omega
                rw [hx1, hx2] at h2
                have h4 : ((dataC.length - 1) + r) % dataC.length
                    = ((dataC.length - 1) + (Q + 1) % dataC.length) % dataC.length := by
                  rw [Nat.add_comm (dataC.length - 1) r,
                    Nat.add_comm (dataC.length - 1) ((Q + 1) % dataC.length)]
                  exact h2
                exact offset_inj hrlt hQ'lt h4
              rcases hchain r d i k hr h hd with
                ⟨d', i', k', hprev, hle⟩
              refine ⟨d', i', k', ?_, hle⟩
              rw [hget'ne _ (fun hh => hr (hprevP hh)) (fun hh => hrQ' (hprevQ2 hh))]
              exact hprev
        have hprevQ1 : ((Q + 1) % dataC.length + dataC.length - 1) % dataC.length = Q := by
          have := prev_mod hn0 Q 0
          simp only [Nat.add_zero, Nat.mod_eq_of_lt hQ] at this
          exact this
        have hguard' : ∀ e i k, dataC'.get? ((Q + 1) % dataC.length) = some (.occ e i k) →
            1 < e → ∃ dR iR kR, dataC'.get? ((Q + dataC.length - 1) % dataC.length)
              = some (.occ dR iR kR) ∧ e - 1 ≤ dR + 1 := by
          intro e i k hQ'occ he
          rw [hget'ne _ hQ'neP hQ'neQ] at hQ'occ
          rcases hchain _ e i k hQ'neQ hQ'occ (by omega) with ⟨d', i', k', hprev, hle⟩
          rw [hprevQ1] at hprev
          rw [hslQ] at hprev
          cases hprev
          rw [hprevQ]
          exact ⟨d0 - 1, i0, k0, hget'P, by omega⟩
        have hPoff : P = (Q + (dataC.length - 1)) % dataC.length := by
          rw [← hprevQ]
          congr 1
          omega
        have hemp' : dataC'.get? (((Q + 1) % dataC.length + (E - 1)) % dataC.length)
            = some Slot.empty := by
          have hx : ((Q + 1) % dataC.length + (E - 1)) % dataC.length
              = (Q + E) % dataC.length := by
            rw [Nat.mod_add_mod]
            congr 1
            omega
          have hne1 : (Q + E) % dataC.length ≠ P := by
            rw [hPoff]
            intro hcontra
            have := offset_inj (by omega : E < dataC.length)
              (by omega : dataC.length - 1 < dataC.length) hcontra
            omega
          have hne2 : (Q + E) % dataC.length ≠ Q := by
            intro hcontra
            have h0 : (Q + E) % dataC.length = (Q + 0) % dataC.length := by
              simp only [Nat.add_zero, Nat.mod_eq_of_lt hQ]
              exact hcontra
            have := offset_inj (by omega : E < dataC.length) (by omega) h0
            omega
          rw [hx, hget'ne _ hne1 hne2]
          exact hemp
        have hoccs' : ∀ j, j < E - 1 → ∃ d i k,
            dataC'.get? (((Q + 1) % dataC.length + j) % dataC.length)
              = some (.occ d i k) := by
          intro j hj
          have hx : ((Q + 1) % dataC.length + j) % dataC.length
              = (Q + (1 + j)) % dataC.length := by
            rw [Nat.mod_add_mod]
            congr 1
            omega
          have hne1 : (Q + (1 + j)) % dataC.length ≠ P := by
            rw [hPoff]
            intro hcontra
            have := offset_inj (by omega : 1 + j < dataC.length)
              (by omega : dataC.length - 1 < dataC.length) hcontra
            omega
          have hne2 : (Q + (1 + j)) % dataC.length ≠ Q := by
            intro hcontra
            have h0 : (Q + (1 + j)) % dataC.length = (Q + 0) % dataC.length := by
              simp only [Nat.add_zero, Nat.mod_eq_of_lt hQ]
              exact hcontra
            have := offset_inj (by omega : 1 + j < dataC.length) (by omega) h0
            omega
          rcases hoccs (1 + j) (by omega) with ⟨d, i, k, hk⟩
          rw [hx, hget'ne _ hne1 hne2]
          exact ⟨d, i, k, hk⟩
        have hrec := ih dataC' Q (E - 1)
          (by rw [hlen']; exact hQ)
          hget'Q
          (by rw [hlen', hcnt']; omega)
          hdisp'
          hinj'
          (by rw [hlen']; exact hchain')
          (by rw [hlen']; exact hguard')
          (by rw [hlen']; omega)
          (by rw [hlen']; exact hemp')
          (by rw [hlen']; exact hoccs')
          (by omega)
        rw [hlen'] at hrec
        rcases hrec with ⟨data2, hres2, hlen2, hT2, hcnt2, hchar2⟩
        refine ⟨data2, ?_, by rw [hlen2], hT2, by rw [hcnt2, hcnt'], ?_⟩
        · simp only [shiftLoop, hslQ]
          rw [if_pos hd0, next_eq_mod hQ]
          have hfold : (dataC.set P (Slot.occ (d0 - 1) i0 k0)).set Q Slot.empty = dataC' := by
            rw [hdataC']
          rw [hfold]
          exact hres2
        · intro I K
          rw [hchar2 I K]
          constructor
          · rintro ⟨p, dd, hp2⟩
            by_cases hpq : p = Q
            · subst hpq
              rw [hget'Q] at hp2
              cases hp2
            · by_cases hpp : p = P
              · subst hpp
                rw [hget'P] at hp2
                cases hp2
                exact ⟨Q, d0, hslQ⟩
              · rw [hget'ne p hpp hpq] at hp2
                exact ⟨p, dd, hp2⟩
          · rintro ⟨p, dd, hp2⟩
            by_cases hpp : p = P
            · subst hpp
              rw [hPemp] at hp2
              cases hp2
            · by_cases hpq : p = Q
              · subst hpq
                rw [hslQ] at hp2
                cases hp2
                exact ⟨P, d0 - 1, hget'P⟩
              · rw [← hget'ne p hpp hpq] at hp2
                exact ⟨p, dd, hp2⟩
      · -- the next slot is at its home position: stop
        have hd0' : d0 = 0 := by omega
        subst hd0'
        refine ⟨dataC, ?_, rfl, hfullOk (Or.inr ⟨0, i0, k0, rfl, rfl⟩), rfl,
          fun I K => Iff.rfl⟩
        simp only [shiftLoop, hslQ]
        rfl

theorem prev_cancel {n : Nat} (hn0 : 0 < n) {r q : Nat} (hr : r < n) (hq : q < n)
    (h : (r + n - 1) % n = (q + n - 1) % n) : r = q := by
  have hx1 : r + n - 1 = (n - 1) + r := by omega
  have hx2 : q + n - 1 = (n - 1) + q := by omega
  rw [hx1, hx2] at h
  exact offset_inj hr hq h

/-- Ids are unique identifiers of ledger entries. -/
theorem id_unique {l : List (Nat × Key × Value)} (h : (l.map (·.1)).Nodup)
    {e1 e2 : Nat × Key × Value} (h1 : e1 ∈ l) (h2 : e2 ∈ l) (he : e1.1 = e2.1) :
    e1 = e2 := by
  induction l with
  | nil => cases h1
  | cons x rest ih =>
    rw [List.map_cons, List.nodup_cons] at h
    rcases List.mem_cons.mp h1 with rfl | h1' <;> rcases List.mem_cons.mp h2 with rfl | h2'
    · rfl
    · exact absurd (he ▸ List.mem_map_of_mem (·.1) h2') h.1
    · exact absurd (he ▸ List.mem_map_of_mem (·.1) h1') h.1
    · exact ih h.2 h1' h2'

/-- `erase` on an absent key returns with the state unchanged. -/
theorem erase_absent {hasher : Key → Nat} {m : HashMap Key Value} (hI : Inv hasher m)
    {k : Key} (habs : ∀ p d i, ¬ m.data.get? p = some (.occ d i k)) :
    HashMap.erase hasher m k = some m := by
  unfold HashMap.erase
  by_cases hs : m.size = 0
  · rw [if_pos hs]
  · rw [if_neg hs]
    have hlt := countOcc_lt_of_size_pos hI (by omega)
    have hn0 : 0 < m.data.length := by omega
    have hH : home hasher m.data.length k < m.data.length := Nat.mod_lt _ hn0
    rw [probeLoop_absent habs hH hlt m.data.length (by omega)]

/-- `erase` on a present key: the referenced node is excised, the slot is
emptied, the backward shift restores well-formedness, and exactly the
erased key's slot disappears from the index. -/
theorem erase_present {hasher : Key → Nat} {m : HashMap Key Value} (hI : Inv hasher m)
    {p dk ik : Nat} {k : Key} (hp : m.data.get? p = some (.occ dk ik k)) :
    ∃ m', HashMap.erase hasher m k = some m' ∧ Inv hasher m' ∧
      m'.size = m.size - 1 ∧ m'.nextId = m.nextId ∧
      m'.data.length = m.data.length ∧
      m'.elemets = m.elemets.eraseP (fun e => decide (e.1 = ik)) ∧
      (∀ I K, (∃ q dd, m'.data.get? q = some (.occ dd I K)) ↔
        ((∃ q dd, m.data.get? q = some (.occ dd I K)) ∧ K ≠ k)) := by
  have hsize := size_pos_of_occ hI hp
  have hlt := countOcc_lt_of_size_pos hI hsize
  have hn0 : 0 < m.data.length := by omega
  have hploc : p < m.data.length := lt_of_get?_some hp
  have hdk := hI.tableOk.disp p dk ik k hp
  have hH : home hasher m.data.length k < m.data.length := Nat.mod_lt _ hn0
  have hfind := probeLoop_found hI.tableOk hp m.data.length 0 (by omega) (by omega)
  rw [Nat.add_zero, Nat.mod_eq_of_lt hH] at hfind
  -- the freed table and its properties
  set data1 := m.data.set p Slot.empty with hdata1
  have hlen1 : data1.length = m.data.length := by rw [hdata1, List.length_set]
  have hget1self : data1.get? p = some Slot.empty := get?_set_self _ p _ (by omega)
  have hget1ne : ∀ q, q ≠ p → data1.get? q = m.data.get? q := by
    intro q hq
    rw [hdata1, get?_set_ne _ p q _ (fun hh => hq hh.symm)]
  have hcnt1 : countOcc data1 + 1 = countOcc m.data := by
    rw [hdata1]
    exact countOcc_set_empty_of_occ hp
  have hsizeLt : m.size < m.data.length := by
    have h1 := hI.loadOk
    unfold REBUILD_CONSTANT at h1
    omega
  have hcnt1lt : countOcc data1 + 1 < data1.length := by
    have h2 := hI.occLe
    rw [hlen1]
    omega
  have hQ : (p + 1) % m.data.length < m.data.length := Nat.mod_lt _ hn0
  have hprevp : ((p + 1) % m.data.length + m.data.length - 1) % m.data.length = p := by
    have := prev_mod hn0 p 0
    simp only [Nat.add_zero, Nat.mod_eq_of_lt hploc] at this
    exact this
  rcases first_empty_exists
    (show countOcc data1 < data1.length by omega)
    (show (p + 1) % m.data.length < data1.length by rw [hlen1]; exact hQ)
    with ⟨E, hE, hemp, hoccs⟩
  rw [hlen1] at hE hemp hoccs
  have hdisp1 : ∀ q d i kk, data1.get? q = some (Slot.occ d i kk) →
      d < data1.length ∧ q = (home hasher data1.length kk + d) % data1.length := by
    intro q d i kk h
    rw [hlen1]
    by_cases hq : q = p
    · subst hq
      rw [hget1self] at h
      cases h
    · rw [hget1ne q hq] at h
      exact hI.tableOk.disp q d i kk h
  have haux := shiftLoop_aux data1.length data1 p E
    (by rw [hlen1]; exact hploc)
    hget1self
    hcnt1lt
    hdisp1
    (by
      intro q r d d' i i' kk h1 h2
      by_cases hq : q = p
      · subst hq
        rw [hget1self] at h1
        cases h1
      · by_cases hr : r = p
        · subst hr
          rw [hget1self] at h2
          cases h2
        · rw [hget1ne q hq] at h1
          rw [hget1ne r hr] at h2
          exact hI.tableOk.keyInj q r d d' i i' kk h1 h2)
    (by
      intro r d i kk hrQ h hd
      rw [hlen1] at hrQ ⊢
      by_cases hr : r = p
      · subst hr
        rw [hget1self] at h
        cases h
      · rw [hget1ne r hr] at h
        rcases hI.tableOk.chain r d i kk h hd with ⟨d', i', k', hprev, hle⟩
        refine ⟨d', i', k', ?_, hle⟩
        have hrlt : r < m.data.length := lt_of_get?_some h
        have hne : (r + m.data.length - 1) % m.data.length ≠ p := by
          intro hcontra
          have h2 : (r + m.data.length - 1) % m.data.length
              = ((p + 1) % m.data.length + m.data.length - 1) % m.data.length := by
            rw [hprevp, hcontra]
          have := prev_cancel hn0 hrlt hQ h2
          exact hrQ this
        rw [hget1ne _ hne]
        exact hprev)
    (by
      intro e i kk hQocc he
      rw [hlen1] at hQocc ⊢
      have hQnep : (p + 1) % m.data.length ≠ p := by
        intro hcontra
        have h1 : (p + 1) % m.data.length = (p + 0) % m.data.length := by
          simp only [Nat.add_zero, Nat.mod_eq_of_lt hploc]
          exact hcontra
        have := offset_inj (by omega : 1 < m.data.length) (by omega) h1
        omega
      rw [hget1ne _ hQnep] at hQocc
      rcases hI.tableOk.chain _ e i kk hQocc (by omega) with ⟨d', i', k', hprev, hle⟩
      rw [hprevp, hp] at hprev
      cases hprev
      have hdkpos : 0 < dk := by omega
      rcases hI.tableOk.chain p dk ik k hp hdkpos with ⟨dR, iR, kR, hR, hleR⟩
      refine ⟨dR, iR, kR, ?_, by omega⟩
      have hne : (p + m.data.length - 1) % m.data.length ≠ p := by
        intro hcontra
        have h1 : (p + (m.data.length - 1)) % m.data.length = (p + 0) % m.data.length := by
          simp only [Nat.add_zero, Nat.mod_eq_of_lt hploc]
          have hx : p + m.data.length - 1 = p + (m.data.length - 1) := by omega
          rw [← hx]
          exact hcontra
        have := offset_inj (by omega : m.data.length - 1 < m.data.length) (by omega) h1
        omega
      rw [hget1ne _ hne]
      exact hR)
    (by rw [hlen1]; exact hE)
    (by rw [hlen1]; exact hemp)
    (by rw [hlen1]; exact hoccs)
    (by rw [hlen1]; exact hE)
  rw [hlen1] at haux
  rcases haux with ⟨data2, hres2, hlen2, hT2, hcnt2, hchar2⟩
  -- the id `ik` belongs to exactly one ledger entry
  rcases hI.coher p dk ik k hp with ⟨v, hv⟩
  have hvp : (fun e => decide (e.1 = ik)) ((ik, k, v) : Nat × Key × Value) = true := by simp
  refine ⟨{ data := data2, size := m.size - 1,
            elemets := m.elemets.eraseP (fun e => decide (e.1 = ik)), nextId := m.nextId },
    ?_, ?_, rfl, rfl, by rw [hlen2], rfl, ?_⟩
  · show HashMap.erase hasher m k = _
    unfold HashMap.erase
    rw [if_neg (by omega)]
    simp only [hfind, ← hdata1, hlen1, next_eq_mod hploc, hres2]
  · constructor
    · show m.size - 1 = (m.elemets.eraseP (fun e => decide (e.1 = ik))).length
      rw [List.length_eraseP_of_mem hv hvp, ← hI.sizeEq]
    · show REBUILD_CONSTANT * (m.size - 1) ≤ data2.length
      have := hI.loadOk
      unfold REBUILD_CONSTANT at this ⊢
      rw [hlen2]
      omega
    · show countOcc data2 ≤ m.size - 1
      have h2 := hI.occLe
      rw [hcnt2]
      omega
    · exact hT2
    · intro q d i kk h
      rcases (hchar2 i kk).mp ⟨q, d, h⟩ with ⟨q', dd', h'⟩
      have hq'p : q' ≠ p := by
        intro hcontra
        rw [hcontra, hget1self] at h'
        cases h'
      rw [hget1ne q' hq'p] at h'
      rcases hI.coher q' dd' i kk h' with ⟨vv, hvv⟩
      have hik : i ≠ ik := by
        intro hcontra
        subst hcontra
        have := id_unique hI.idsNodup hvv hv rfl
        cases this
        exact hq'p (hI.tableOk.keyInj q' p dd' dk i i k h' hp)
      exact ⟨vv, (List.mem_eraseP_of_neg (by simp [hik])).mpr hvv⟩
    · show ((m.elemets.eraseP (fun e => decide (e.1 = ik))).map (·.1)).Nodup
      exact hI.idsNodup.sublist
        (List.Sublist.map (fun e => e.1) (List.eraseP_sublist m.elemets))
    · intro ent hent
      show ent.1 < m.nextId
      exact hI.idsLt ent (List.mem_of_mem_eraseP hent)
  · intro I K
    constructor
    · rintro ⟨q, dd, h⟩
      rcases (hchar2 I K).mp ⟨q, dd, h⟩ with ⟨q', dd', h'⟩
      have hq'p : q' ≠ p := by
        intro hcontra
        rw [hcontra, hget1self] at h'
        cases h'
      rw [hget1ne q' hq'p] at h'
      refine ⟨⟨q', dd', h'⟩, ?_⟩
      intro hcontra
      subst hcontra
      exact hq'p (hI.tableOk.keyInj q' p dd' dk I ik K h' hp)
    · rintro ⟨⟨q, dd, h⟩, hK⟩
      have hqp : q ≠ p := by
        intro hcontra
        rw [hcontra, hp] at h
        cases h
        exact hK rfl
      apply (hchar2 I K).mpr
      exact ⟨q, dd, by rw [hget1ne q hqp]; exact h⟩

/-- One walk of `clear` from `s`: with the first empty slot at offset `E`,
the walk empties exactly the occupied run `s, s+1, …, s+E-1` and leaves
every other slot unchanged. -/
theorem clearLoop_run {Key : Type} :
    ∀ (fuel : Nat) (data : List (Slot Key)) (s E : Nat),
      s < data.length → E < data.length →
      data.get? ((s + E) % data.length) = some Slot.empty →
      (∀ j, j < E → ∃ d id k, data.get? ((s + j) % data.length) = some (.occ d id k)) →
      E < fuel →
      ∃ data', clearLoop data s fuel = some data' ∧
        data'.length = data.length ∧
        (∀ j, j ≤ E → data'.get? ((s + j) % data.length) = some Slot.empty) ∧
        (∀ q, (∀ j, j < E → q ≠ (s + j) % data.length) → data'.get? q = data.get? q) := by
  intro fuel
  induction fuel with
  | zero => intro data s E _ _ _ _ h; omega
  | succ fuel ih =>
    intro data s E hs hE hemp hoccs hfuel
    have hn0 : 0 < data.length := by omega
    have hsmod : s % data.length = s := Nat.mod_eq_of_lt hs
    by_cases hE0 : E = 0
    · subst hE0
      rw [Nat.add_zero, hsmod] at hemp
      refine ⟨data, ?_, rfl, ?_, fun q _ => rfl⟩
      · simp only [clearLoop, hemp]
      · intro j hj
        have hj0 : j = 0 := by omega
        subst hj0
        rw [Nat.add_zero, hsmod]
        exact hemp
    · rcases hoccs 0 (by omega) with ⟨d, id, k, hocc⟩
      rw [Nat.add_zero, hsmod] at hocc
      have hlen1 : (data.set s Slot.empty).length = data.length := List.length_set data s _
      have hg1self : (data.set s Slot.empty).get? s = some Slot.empty :=
        get?_set_self _ s _ hs
      have hg1ne : ∀ q, q ≠ s → (data.set s Slot.empty).get? q = data.get? q := by
        intro q hq
        rw [get?_set_ne _ s q _ (fun hh => hq hh.symm)]
      have hs1 : (s + 1) % data.length < data.length := Nat.mod_lt _ hn0
      have havoid : ∀ t, 0 < t → t < data.length → (s + t) % data.length ≠ s := by
        intro t ht htl hcontra
        have h1 : (s + t) % data.length = (s + 0) % data.length := by
          rw [Nat.add_zero, hsmod]
          exact hcontra
        have := offset_inj htl hn0 h1
        omega
      have hshift : ∀ j : Nat, ((s + 1) % data.length + j) % data.length
          = (s + (1 + j)) % data.length := by
        intro j
        rw [Nat.mod_add_mod, Nat.add_assoc]
      rcases ih (data.set s Slot.empty) ((s + 1) % data.length) (E - 1)
        (by rw [hlen1]; exact hs1)
        (by rw [hlen1]; omega)
        (by
          rw [hlen1, hshift]
          have h1 : 1 + (E - 1) = E := by omega
          rw [h1, hg1ne _ (havoid E (by omega) hE)]
          exact hemp)
        (by
          intro j hj
          rw [hlen1, hshift]
          rcases hoccs (1 + j) (by omega) with ⟨d', id', k', h'⟩
          exact ⟨d', id', k',
            by rw [hg1ne _ (havoid (1 + j) (by omega) (by omega))]; exact h'⟩)
        (by omega) with ⟨data', hres, hlen', hclr, hunch⟩
      rw [hlen1] at hclr hunch
      simp only [hshift] at hclr hunch
      refine ⟨data', ?_, by rw [hlen', hlen1], ?_, ?_⟩
      · simp only [clearLoop, hocc]
        rw [next_eq_mod hs]
        exact hres
      · intro j hj
        cases Nat.eq_zero_or_pos j with
        | inl h0 =>
          subst h0
          rw [Nat.add_zero, hsmod]
          rw [hunch s (fun j' hj' => Ne.symm (havoid (1 + j') (by omega) (by omega)))]
          exact hg1self
        | inr hpos =>
          have hx := hclr (j - 1) (by omega)
          have h1 : 1 + (j - 1) = j := by omega
          rw [h1] at hx
          exact hx
      · intro q hq
        rw [hunch q (fun j' hj' => hq (1 + j') (by omega))]
        exact hg1ne q (by
          have := hq 0 (by omega)
          rw [Nat.add_zero, hsmod] at this
          exact this)

/-- Occupied slots of an intermediate `clear` state are a subset of the
original ones, so the occupied count never grows. -/
theorem countOcc_le_of_sub {Key : Type} {data0 data : List (Slot Key)}
    (hlen : data.length = data0.length)
    (hsub : ∀ p d id k, data.get? p = some (.occ d id k) →
      data0.get? p = some (.occ d id k)) :
    countOcc data ≤ countOcc data0 := by
  rw [countOcc_eq_countP_range, countOcc_eq_countP_range, hlen]
  apply List.countP_mono_left
  intro p _ hocc
  unfold occAt at hocc ⊢
  cases hget : data.get? p with
  | none =>
    rw [hget] at hocc
    exact Bool.noConfusion hocc
  | some sl =>
    cases sl with
    | empty =>
      rw [hget] at hocc
      exact Bool.noConfusion hocc
    | occ d id k =>
      rw [hsub p d id k hget]
      rfl

/-- One walk of `clear` for the key of a ledger entry: it terminates
within the given fuel, keeps the `Cleared` relation, never re-occupies a
slot, and afterwards every original slot holding that key is empty. -/
theorem clearWalk_spec {hasher : Key → Nat} {data0 data : List (Slot Key)}
    (hT : TableOk hasher data0) (hcnt : countOcc data0 < data0.length)
    (hC : Cleared data0 data) (k : Key) :
    ∃ data', clearLoop data (home hasher data.length k) (data.length + 1) = some data' ∧
      Cleared data0 data' ∧
      (∀ q, data.get? q = some Slot.empty → data'.get? q = some Slot.empty) ∧
      (∀ p d id, data0.get? p = some (.occ d id k) → data'.get? p = some Slot.empty) := by
  have hlen := hC.len
  have hn0 : 0 < data.length := by omega
  have hcnt' : countOcc data < data.length := by
    have := countOcc_le_of_sub hlen hC.sub
    omega
  have hs : home hasher data.length k < data.length := Nat.mod_lt _ hn0
  rcases first_empty_exists hcnt' hs with ⟨E, hE, hemp, hoccs⟩
  rcases clearLoop_run (data.length + 1) data (home hasher data.length k) E hs hE hemp hoccs
    (by omega) with ⟨data', hres, hlen', hclr, hunch⟩
  have hmono : ∀ q, data.get? q = some Slot.empty → data'.get? q = some Slot.empty := by
    intro q hq
    by_cases hqc : ∃ j, j ≤ E ∧ q = (home hasher data.length k + j) % data.length
    · rcases hqc with ⟨j, hj, rfl⟩
      exact hclr j hj
    · push_neg at hqc
      rw [hunch q (fun j hj => hqc j (by omega))]
      exact hq
  have hC' : Cleared data0 data' := by
    refine ⟨by rw [hlen']; exact hlen, ?_, ?_⟩
    · intro p d id kk h
      by_cases hpc : ∃ j, j ≤ E ∧ p = (home hasher data.length k + j) % data.length
      · rcases hpc with ⟨j, hj, rfl⟩
        rw [hclr j hj] at h
        cases h
      · push_neg at hpc
        rw [hunch p (fun j hj => hpc j (by omega))] at h
        exact hC.sub p d id kk h
    · intro p d id kk h0 hpe
      by_cases hpc : ∃ j, j < E ∧ p = (home hasher data.length k + j) % data.length
      · rcases hpc with ⟨j, hj, rfl⟩
        left
        have hx : ((home hasher data.length k + j) % data.length + 1) % data0.length
            = (home hasher data.length k + (j + 1)) % data.length := by
          rw [← hlen, Nat.mod_add_mod, Nat.add_assoc]
        rw [hx]
        exact hclr (j + 1) (by omega)
      · push_neg at hpc
        rw [hunch p (fun j hj => hpc j hj)] at hpe
        rcases hC.prop p d id kk h0 hpe with h | h
        · exact Or.inl (hmono _ h)
        · exact Or.inr h
  refine ⟨data', hres, hC', hmono, ?_⟩
  intro p d id h0
  have hd := hT.disp p d id k h0
  rw [← hlen] at hd
  have hBC : ∀ j, j ≤ d → ∃ d' id' k',
      data0.get? ((home hasher data.length k + j) % data.length)
        = some (.occ d' id' k') := by
    intro j hj
    rcases backChain hT h0 j hj with ⟨d', id', k', hx, -⟩
    rw [hlen]
    exact ⟨d', id', k', hx⟩
  by_cases hall : ∀ j, j ≤ d → ∃ d' id' k',
      data.get? ((home hasher data.length k + j) % data.length) = some (.occ d' id' k')
  · have hdE : d < E := by
      by_contra hc
      rcases hall E (by omega) with ⟨d', id', k', hx⟩
      rw [hemp] at hx
      cases hx
    rw [hd.2]
    exact hclr d (by omega)
  · push_neg at hall
    rcases hall with ⟨j, hj, hno⟩
    have hpos : (home hasher data.length k + j) % data.length < data.length :=
      Nat.mod_lt _ hn0
    rcases get?_some_of_lt data hpos with ⟨sl, hsl⟩
    have hslemp : data.get? ((home hasher data.length k + j) % data.length)
        = some Slot.empty := by
      cases sl with
      | empty => exact hsl
      | occ d' id' k' => exact absurd hsl (hno d' id' k')
    have hprop : ∀ t, j + t ≤ d →
        data.get? ((home hasher data.length k + (j + t)) % data.length)
          = some Slot.empty := by
      intro t
      induction t with
      | zero => intro _; exact hslemp
      | succ t iht =>
        intro hle
        have hx := iht (by omega)
        rcases hBC (j + t) (by omega) with ⟨d', id', k', hocc0⟩
        have hstep := hC.prop _ d' id' k' hocc0 hx
        have hnx : ((home hasher data.length k + (j + t)) % data.length + 1) % data0.length
            = (home hasher data.length k + (j + (t + 1))) % data.length := by
          rw [← hlen, Nat.mod_add_mod]
          congr 1
        rw [hnx] at hstep
        rcases hstep with h | h
        · exact h
        · rcases hBC (j + (t + 1)) (by omega) with ⟨d2, id2, k2, hocc2⟩
          rw [hocc2] at h
          cases h
    have hfin := hprop (d - j) (by omega)
    have hjd : j + (d - j) = d := by omega
    rw [hjd] at hfin
    rw [← hd.2] at hfin
    exact hmono p hfin

/-- The outer loop of `clear`: after one walk per ledger entry, the
`Cleared` relation still holds, emptiness is preserved, and every original
slot whose key occurs in the processed entries is empty. -/
theorem clearFold_spec {hasher : Key → Nat} {data0 : List (Slot Key)}
    (hT : TableOk hasher data0) (hcnt : countOcc data0 < data0.length) :
    ∀ (elems : List (Nat × Key × Value)) (data : List (Slot Key)), Cleared data0 data →
      ∃ data', clearFold hasher elems data = some data' ∧ Cleared data0 data' ∧
        (∀ q, data.get? q = some Slot.empty → data'.get? q = some Slot.empty) ∧
        (∀ e, e ∈ elems → ∀ p d id, data0.get? p = some (.occ d id e.2.1) →
          data'.get? p = some Slot.empty) := by
  intro elems
  induction elems with
  | nil =>
    intro data hC
    exact ⟨data, rfl, hC, fun q hq => hq, fun e he => absurd he (List.not_mem_nil e)⟩
  | cons e rest ih =>
    intro data hC
    rcases clearWalk_spec hT hcnt hC e.2.1 with ⟨data1, hres1, hC1, hmono1, hkey1⟩
    rcases ih data1 hC1 with ⟨data', hres', hC', hmono', hkeys'⟩
    refine ⟨data', ?_, hC', fun q hq => hmono' q (hmono1 q hq), ?_⟩
    · show clearFold hasher (e :: rest) data = some data'
      simp only [clearFold, hres1]
      exact hres'
    · intro e' he' p d id h0
      rcases List.mem_cons.mp he' with rfl | hmem
      · exact hmono' p (hkey1 p d id h0)
      · exact hkeys' e' hmem p d id h0

/-- The concrete state `mEx` (the result of inserting `(1, 10)` into a
fresh `Nat`-map under the identity hash) satisfies the invariant. -/
theorem Inv_mEx : Inv idHash mEx := by
  have hd : Inv idHash (HashMap.defaultMap Nat Nat) := Inv_default
  rcases insertGo_spec hd 1 10 0 with ⟨m', hres, hI', _, _, _, _, _⟩
  have h2 : insertGo idHash 2 (HashMap.defaultMap Nat Nat) (1, 10) = some mEx := by decide
  rw [h2] at hres
  cases hres
  exact hI'

/-- C1: the claim says that on a fresh map, `insert (1,v1); insert (1,v2)`
leaves `at 1 = v1` and `size = 1`.  The code keeps the existing value
(`at 1 = v1` holds) but the duplicate insert increments `size_` and
appends the duplicate pair to the entry list before the duplicate is
detected, and neither effect is rolled back: `size` ends up `2` and
iteration shows both pairs. -/
theorem C1_duplicate_insert_inflates_size :
    ((HashMap.defaultMap Nat Nat).insert idHash (1, 10)).bind
        (fun m1 => (m1.insert idHash (1, 20)).map
          (fun m2 => (m2.size, m2.atKey idHash 1, m2.toPairs)))
      = some (2, some (some 10), [(1, 10), (1, 20)]) := by decide

/-- C5: on a reachable state where key 1 is absent (`find` = end, so `at`
raises KeyNotFound as claimed), indexed access `operator[]` is claimed to
insert a default-constructed value (`0`) and return a reference to it.
Instead, the insert of `(1, 0)` triggers a rebuild which re-places the
stale duplicate ledger pair `(1, 98)` left behind by an earlier duplicate
insert, so `operator[]` returns `98`, not the default `0` (the size does
grow by 1, from 3 to 4). -/
theorem C5_opIndex_returns_stale_value :
    ((HashMap.defaultMap Nat Nat).insert idHash (1, 99)).bind (fun m1 =>
      (m1.insert idHash (1, 98)).bind (fun m2 =>
        (m2.erase idHash 1).bind (fun m3 =>
          (m3.insert idHash (2, 20)).bind (fun m4 =>
            (m4.insert idHash (3, 30)).bind (fun m5 =>
              (m5.opIndex idHash 1).map (fun vm =>
                (m5.find idHash 1, m5.atKey idHash 1, vm.1, vm.2.size, m5.size)))))))
      = some (some none, some none, 98, 4, 3) := by decide

/-- C6: the round-trip claim says that once `(1, 12)` is inserted while
key 1 is absent (`find` on the pre-state is end), `find 1` dereferences to
`(1, 12)` after any further inserts of other keys, until 1 is erased.
Inserting the unrelated keys 2 and 3 triggers a rebuild that re-places the
stale duplicate ledger pair `(1, 11)` (left behind by an earlier duplicate
insert and never erased), after which `at 1 = 11`, not `12`. -/
theorem C6_roundtrip_broken_by_stale_duplicate :
    ((HashMap.defaultMap Nat Nat).insert idHash (1, 10)).bind (fun m1 =>
      (m1.insert idHash (1, 11)).bind (fun m2 =>
        (m2.erase idHash 1).bind (fun m3 =>
          (m3.insert idHash (1, 12)).bind (fun m4 =>
            (m4.insert idHash (2, 20)).bind (fun m5 =>
              (m5.insert idHash (3, 30)).map (fun m6 =>
                (m3.find idHash 1, m4.atKey idHash 1, m6.atKey idHash 1)))))))
      = some (some none, some (some 12), some (some 11)) := by decide

/-- C7 counterexample: the claim says that after `a = b` every key present
in the destination beforehand is still present with its original value.
For a destination holding `(1, 10)` and an *empty* source, `reserve_(0)`
resizes the probe index to capacity 0 while the destination's entry and
size counter survive; the subsequent `find`/`at` on key 1 evaluate
`hash(1) % 0` on a zero-length index (undefined behaviour in the C++,
a stuck `none` here), so key 1 is no longer reachable. -/
theorem C7_empty_source_loses_destination_keys :
    ((HashMap.defaultMap Nat Nat).insert idHash (1, 10)).bind (fun d =>
      (d.assign idHash (HashMap.defaultMap Nat Nat)).map (fun a =>
        (d.atKey idHash 1, a.data.length, a.size, a.elemets, a.find idHash 1,
          a.atKey idHash 1)))
      = some (some (some 10), 0, 1, [(1, 1, 10)], none, none) := by rfl

/-- C10: on the default-constructed map (capacity 0, size 0) every
operation is safe: `find` returns end, `erase` and `clear` leave the state
unchanged, `at` raises KeyNotFound, and `insert` takes the rebuild branch,
growing the index to capacity 3 before any `hash % capacity` is taken.
The results are the same for every hash functor, so no operation consults
`hash(key) % 0`. -/
theorem C10_default_map_operations_are_safe {Key Value : Type} [DecidableEq Key] :
    ∀ (hasher : Key → Nat) (k : Key),
      HashMap.find hasher (HashMap.defaultMap Key Value) k = some none ∧
      HashMap.erase hasher (HashMap.defaultMap Key Value) k
        = some (HashMap.defaultMap Key Value) ∧
      HashMap.atKey hasher (HashMap.defaultMap Key Value) k = some none ∧
      HashMap.clear hasher (HashMap.defaultMap Key Value)
        = some (HashMap.defaultMap Key Value) ∧
      ∀ v : Value, ∃ m', HashMap.insert hasher (HashMap.defaultMap Key Value) (k, v) = some m' ∧
        m'.data.length = 3 ∧ m'.size = 1 ∧ m'.elemets = [(1, k, v)] := by
  intro hasher k
  refine ⟨rfl, rfl, rfl, rfl, ?_⟩
  intro v
  have hr : hasher k % 3 < 3 := Nat.mod_lt _ (by omega)
  refine ⟨{ data := (List.replicate 3 Slot.empty).set (hasher k % 3) (.occ 0 1 k),
            size := 1, elemets := [(1, k, v)], nextId := 2 }, ?_, ?_, rfl, rfl⟩
  · show insertGo hasher 2 (HashMap.defaultMap Key Value) (k, v) = _
    simp only [insertGo, HashMap.defaultMap, REBUILD_CONSTANT, EXTENDED_CONSTANT,
      EXTENDED_SHIFT, List.length_nil, List.nil_append, List.foldl]
    norm_num
    simp only [insertLoop, List.length_replicate, get?_replicate _ 3 _ hr, home]
  · simp [List.length_set]

/-- C2: for every sequence of inserts with pairwise-distinct keys into an
initially empty map, `size()` equals the number of keys inserted and
iterating `begin()`..`end()` yields exactly those pairs in first-insertion
order. -/
theorem C2_distinct_inserts_size_and_order {Key Value : Type} [DecidableEq Key]
    (hasher : Key → Nat) (l : List (Key × Value)) (hnd : (l.map Prod.fst).Nodup) :
    ∃ m', insertAll hasher (HashMap.defaultMap Key Value) l = some m' ∧
      m'.size = l.length ∧ m'.toPairs = l := by
  rcases insertAll_spec l (HashMap.defaultMap Key Value) Inv_default with
    ⟨m', hres, _, hsize, hpairs⟩
  refine ⟨m', hres, by rw [hsize]; simp [HashMap.defaultMap], ?_⟩
  show pairsOf m'.elemets = l
  rw [hpairs]
  simp [HashMap.defaultMap, pairsOf]

/-- Witness for C2 at scenario A: inserting (1,a) (2,b) (3,c) in order. -/
theorem C2_witness :
    (([((1 : Nat), (10 : Nat)), (2, 20), (3, 30)].map Prod.fst).Nodup) ∧
    (∃ m', insertAll idHash (HashMap.defaultMap Nat Nat) [(1, 10), (2, 20), (3, 30)]
        = some m' ∧ m'.size = 3 ∧ m'.toPairs = [(1, 10), (2, 20), (3, 30)]) :=
  ⟨by decide, C2_distinct_inserts_size_and_order idHash [(1, 10), (2, 20), (3, 30)] (by decide)⟩

/-- C3: after every insert on an invariant state, `3 * size() ≤ capacity`
holds; a rebuild triggered by the insert grows the capacity to
`2 * old_capacity + 3`; and the index afterwards retains at least one
empty slot (which is what terminates every probe scan). -/
theorem C3_load_invariant_and_rebuild_growth {Key Value : Type} [DecidableEq Key]
    {hasher : Key → Nat} {m : HashMap Key Value} (hI : Inv hasher m) (k : Key) (v : Value) :
    ∃ m', HashMap.insert hasher m (k, v) = some m' ∧
      REBUILD_CONSTANT * m'.size ≤ m'.data.length ∧
      ((m.size + 1) * REBUILD_CONSTANT > m.data.length →
        m'.data.length = EXTENDED_CONSTANT * m.data.length + EXTENDED_SHIFT) ∧
      (∃ p, m'.data.get? p = some Slot.empty) := by
  rcases insertGo_spec hI k v m.size with ⟨m', hres, hI', hsize', _, hgrow, _, _⟩
  refine ⟨m', hres, hI'.loadOk, hgrow, ?_⟩
  have h1 := hI'.loadOk
  have h2 := hI'.occLe
  unfold REBUILD_CONSTANT at h1
  rcases exists_empty_slot (show countOcc m'.data < m'.data.length by omega) with ⟨p, _, hp⟩
  exact ⟨p, hp⟩

/-- Witness for C3: a single insert into the default map. -/
theorem C3_witness :
    Inv idHash (HashMap.defaultMap Nat Nat) ∧
    (∃ m', HashMap.insert idHash (HashMap.defaultMap Nat Nat) (1, 10) = some m' ∧
      REBUILD_CONSTANT * m'.size ≤ m'.data.length ∧
      (((HashMap.defaultMap Nat Nat).size + 1) * REBUILD_CONSTANT
          > (HashMap.defaultMap Nat Nat).data.length →
        m'.data.length = EXTENDED_CONSTANT * (HashMap.defaultMap Nat Nat).data.length
          + EXTENDED_SHIFT) ∧
      (∃ p, m'.data.get? p = some Slot.empty)) :=
  ⟨Inv_default, C3_load_invariant_and_rebuild_growth Inv_default 1 10⟩

/-- C4: erase-then-find law on every invariant state: `erase k` succeeds,
`find k` afterwards is `end()` (not found), and if `k` was not found
before the call then the erase was a no-op leaving the whole container
state unchanged. -/
theorem C4_erase_then_find {Key Value : Type} [DecidableEq Key]
    {hasher : Key → Nat} {m : HashMap Key Value} (hI : Inv hasher m) (k : Key) :
    ∃ m', HashMap.erase hasher m k = some m' ∧
      HashMap.find hasher m' k = some none ∧
      (HashMap.find hasher m k = some none → m' = m) := by
  by_cases hpres : ∃ p d i, m.data.get? p = some (Slot.occ d i k)
  · rcases hpres with ⟨p, d, i, hp⟩
    rcases erase_present hI hp with ⟨m', hres, hI', _, _, _, _, hchar⟩
    refine ⟨m', hres, ?_, ?_⟩
    · apply find_absent hI'
      intro q dd ii hq
      exact ((hchar ii k).mp ⟨q, dd, hq⟩).2 rfl
    · intro hfind
      rw [find_present hI hp] at hfind
      cases hfind
  · push_neg at hpres
    exact ⟨m, erase_absent hI (fun p d i => hpres p d i),
      find_absent hI (fun p d i => hpres p d i), fun _ => rfl⟩

/-- Witness for C4: erasing key 1 from the one-entry state `mEx`. -/
theorem C4_witness :
    ∃ m', HashMap.erase idHash mEx 1 = some m' ∧
      HashMap.find idHash m' 1 = some none ∧
      (HashMap.find idHash mEx 1 = some none → m' = mEx) :=
  C4_erase_then_find Inv_mEx 1

/-- C9: `clear()` leaves `size() == 0` and iteration empty, empties every
probe index slot while retaining the capacity unchanged, and is
idempotent: clearing the cleared map succeeds and returns the same state
(so the second `clear` again sees `size() == 0` and empty iteration). -/
theorem C9_clear_resets {Key Value : Type} [DecidableEq Key]
    {hasher : Key → Nat} {m : HashMap Key Value} (hI : Inv hasher m) :
    ∃ m', HashMap.clear hasher m = some m' ∧
      m'.size = 0 ∧ m'.toPairs = [] ∧
      m'.data.length = m.data.length ∧
      (∀ p, p < m'.data.length → m'.data.get? p = some Slot.empty) ∧
      HashMap.clear hasher m' = some m' := by
  by_cases hsz : m.size = 0
  · have helems : m.elemets = [] := by
      have := hI.sizeEq
      rw [hsz] at this
      exact List.length_eq_zero.mp this.symm
    refine ⟨{ data := m.data, size := 0, elemets := [], nextId := m.nextId },
      ?_, rfl, rfl, rfl, ?_, rfl⟩
    · show HashMap.clear hasher m = _
      unfold HashMap.clear
      rw [helems]
      rfl
    · intro p hp
      have hocc0 : countOcc m.data = 0 := by
        have := hI.occLe
        omega
      rcases get?_some_of_lt m.data hp with ⟨sl, hsl⟩
      cases sl with
      | empty => exact hsl
      | occ d id k =>
        have hmem : (Slot.occ d id k : Slot Key) ∈ m.data := List.get?_mem hsl
        have hfalse := List.countP_eq_zero.mp hocc0 _ hmem
        exact absurd rfl hfalse
  · have hcnt : countOcc m.data < m.data.length :=
      countOcc_lt_of_size_pos hI (by omega)
    have hC0 : Cleared m.data m.data := by
      refine ⟨rfl, fun p d id k h => h, ?_⟩
      intro p d id k h0 hemp
      rw [h0] at hemp
      cases hemp
    rcases clearFold_spec hI.tableOk hcnt m.elemets m.data hC0 with
      ⟨data', hres, hC', _, hkeys⟩
    have hallemp : ∀ p, p < data'.length → data'.get? p = some Slot.empty := by
      intro p hp
      rcases get?_some_of_lt data' hp with ⟨sl, hsl⟩
      cases sl with
      | empty => exact hsl
      | occ d id k =>
        have h0 := hC'.sub p d id k hsl
        rcases hI.coher p d id k h0 with ⟨v, hv⟩
        have := hkeys (id, k, v) hv p d id h0
        rw [hsl] at this
        cases this
    refine ⟨{ data := data', size := 0, elemets := [], nextId := m.nextId },
      ?_, rfl, rfl, hC'.len, hallemp, rfl⟩
    show HashMap.clear hasher m = _
    unfold HashMap.clear
    rw [hres]

/-- Witness for C9: clearing the one-entry state `mEx`. -/
theorem C9_witness :
    ∃ m', HashMap.clear idHash mEx = some m' ∧
      m'.size = 0 ∧ m'.toPairs = [] ∧
      m'.data.length = mEx.data.length ∧
      (∀ p, p < m'.data.length → m'.data.get? p = some Slot.empty) ∧
      HashMap.clear idHash m' = some m' :=
  C9_clear_resets Inv_mEx

/-- The stored displacement of an occupied slot, in the spec's arithmetic
form `(p - home(k)) mod capacity` (written `(p + n - home(k)) % n` over
`Nat`). -/
theorem disp_eq_of_tableOk {hasher : Key → Nat} {data : List (Slot Key)}
    (hT : TableOk hasher data) {p d id : Nat} {k : Key}
    (hp : data.get? p = some (.occ d id k)) :
    d = (p + data.length - home hasher data.length k) % data.length := by
  have hd := hT.disp p d id k hp
  have hn0 : 0 < data.length := by
    have := lt_of_get?_some hp
    omega
  have hH : home hasher data.length k < data.length := Nat.mod_lt _ hn0
  rw [hd.2, disp_form hH hd.1]

/-- C8: in every invariant state, every occupied Probe Index slot at
position `p` holding key `k` stores displacement `(p - home(k)) mod
capacity`; and the states produced by `insert` (including its rebuild
branch), `erase` (with backward shift) and `clear` satisfy the same
property. -/
theorem C8_displacement_invariant {Key Value : Type} [DecidableEq Key]
    {hasher : Key → Nat} {m : HashMap Key Value} (hI : Inv hasher m)
    (k : Key) (v : Value) :
    (∀ p d id kk, m.data.get? p = some (.occ d id kk) →
      d = (p + m.data.length - home hasher m.data.length kk) % m.data.length) ∧
    (∀ m', HashMap.insert hasher m (k, v) = some m' →
      ∀ p d id kk, m'.data.get? p = some (.occ d id kk) →
        d = (p + m'.data.length - home hasher m'.data.length kk) % m'.data.length) ∧
    (∀ m', HashMap.erase hasher m k = some m' →
      ∀ p d id kk, m'.data.get? p = some (.occ d id kk) →
        d = (p + m'.data.length - home hasher m'.data.length kk) % m'.data.length) ∧
    (∀ m', HashMap.clear hasher m = some m' →
      ∀ p d id kk, m'.data.get? p = some (.occ d id kk) →
        d = (p + m'.data.length - home hasher m'.data.length kk) % m'.data.length) := by
  refine ⟨fun p d id kk hp => disp_eq_of_tableOk hI.tableOk hp, ?_, ?_, ?_⟩
  · intro m' hres p d id kk hp
    rcases insertGo_spec hI k v m.size with ⟨m'', hres'', hI'', _⟩
    have heq : HashMap.insert hasher m (k, v) = some m'' := hres''
    rw [heq] at hres
    cases hres
    exact disp_eq_of_tableOk hI''.tableOk hp
  · intro m' hres p d id kk hp
    by_cases hpres : ∃ q dd ii, m.data.get? q = some (Slot.occ dd ii k)
    · rcases hpres with ⟨q, dd, ii, hq⟩
      rcases erase_present hI hq with ⟨m'', hres'', hI'', _⟩
      rw [hres''] at hres
      cases hres
      exact disp_eq_of_tableOk hI''.tableOk hp
    · push_neg at hpres
      rw [erase_absent hI (fun q dd ii => hpres q dd ii)] at hres
      cases hres
      exact disp_eq_of_tableOk hI.tableOk hp
  · intro m' hres p d id kk hp
    unfold HashMap.clear at hres
    by_cases hsz : m.size = 0
    · have helems : m.elemets = [] := by
        have := hI.sizeEq
        rw [hsz] at this
        exact List.length_eq_zero.mp this.symm
      rw [helems] at hres
      have hres' : (some { data := m.data, size := 0, elemets := [], nextId := m.nextId }
          : Option (HashMap Key Value)) = some m' := hres
      cases hres'
      exact disp_eq_of_tableOk hI.tableOk hp
    · have hcnt := countOcc_lt_of_size_pos hI (by omega)
      have hC0 : Cleared m.data m.data := by
        refine ⟨rfl, fun p d id kk h => h, ?_⟩
        intro p d id kk h0 hemp
        rw [h0] at hemp
        cases hemp
      rcases clearFold_spec hI.tableOk hcnt m.elemets m.data hC0 with
        ⟨data', hfold, hC', -, -⟩
      rw [hfold] at hres
      have hres' : (some { data := data', size := 0, elemets := [], nextId := m.nextId }
          : Option (HashMap Key Value)) = some m' := hres
      cases hres'
      have hdisp := disp_eq_of_tableOk hI.tableOk (hC'.sub p d id kk hp)
      show d = (p + data'.length - home hasher data'.length kk) % data'.length
      rw [hC'.len]
      exact hdisp

/-- Witness for C8: the state `mEx` with the insert of `(2, 20)` and the
erase and clear of the operations at key `2`. -/
theorem C8_witness :
    Inv idHash mEx ∧
    ((∀ p d id kk, mEx.data.get? p = some (.occ d id kk) →
      d = (p + mEx.data.length - home idHash mEx.data.length kk) % mEx.data.length) ∧
    (∀ m', HashMap.insert idHash mEx (2, 20) = some m' →
      ∀ p d id kk, m'.data.get? p = some (.occ d id kk) →
        d = (p + m'.data.length - home idHash m'.data.length kk) % m'.data.length) ∧
    (∀ m', HashMap.erase idHash mEx 2 = some m' →
      ∀ p d id kk, m'.data.get? p = some (.occ d id kk) →
        d = (p + m'.data.length - home idHash m'.data.length kk) % m'.data.length) ∧
    (∀ m', HashMap.clear idHash mEx = some m' →
      ∀ p d id kk, m'.data.get? p = some (.occ d id kk) →
        d = (p + m'.data.length - home idHash m'.data.length kk) % m'.data.length)) :=
  ⟨Inv_mEx, C8_displacement_invariant Inv_mEx 2 20⟩

/-- C7 (amended): when the source is nonempty and the destination ledger
has pairwise-distinct keys, copy assignment performs reserve followed by
inserting every source entry in source order without clearing the
destination first: afterwards iteration yields the destination's pairs
followed by the source's, and every key present in the destination
before assignment is still present with its original value — in
particular a key present in both maps keeps the destination's value, the
source's colliding entry being dropped by the insert-if-absent rule. -/
theorem C7_assign_keeps_destination {Key Value : Type} [DecidableEq Key]
    {hasher : Key → Nat} {dest src : HashMap Key Value}
    (hdest : Inv hasher dest) (hsrc : Inv hasher src)
    (hnd : (dest.elemets.map (fun e => e.2.1)).Nodup)
    (hne : src.elemets ≠ []) :
    ∃ a, HashMap.assign hasher dest src = some a ∧
      a.toPairs = dest.toPairs ++ src.toPairs ∧
      (∀ k v, (k, v) ∈ dest.toPairs → HashMap.atKey hasher a k = some (some v)) := by
  have hA0len : (reserve_ dest src.size).data.length = EXTENDED_CONSTANT * src.size := by
    show (dest.data.take (EXTENDED_CONSTANT * src.size) ++
      List.replicate (EXTENDED_CONSTANT * src.size - dest.data.length)
        (Slot.empty : Slot Key)).length = EXTENDED_CONSTANT * src.size
    rw [List.length_append, List.length_take, List.length_replicate]
    omega
  have hA0occ : countOcc (reserve_ dest src.size).data ≤ dest.size := by
    show countOcc (dest.data.take (EXTENDED_CONSTANT * src.size) ++
      List.replicate (EXTENDED_CONSTANT * src.size - dest.data.length)
        (Slot.empty : Slot Key)) ≤ dest.size
    unfold countOcc
    rw [List.countP_append]
    have h1 : (dest.data.take (EXTENDED_CONSTANT * src.size)).countP Slot.isOcc
        ≤ dest.data.countP Slot.isOcc :=
      List.Sublist.countP_le Slot.isOcc (List.take_sublist _ _)
    have h2 : (List.replicate (EXTENDED_CONSTANT * src.size - dest.data.length)
        (Slot.empty : Slot Key)).countP Slot.isOcc = 0 := countOcc_replicate _
    have h3 := hdest.occLe
    unfold countOcc at h3
    omega
  have hstale : (((reserve_ dest src.size).data.length = EXTENDED_CONSTANT * src.size ∧
      (reserve_ dest src.size).size = (reserve_ dest src.size).elemets.length ∧
      countOcc (reserve_ dest src.size).data ≤ (reserve_ dest src.size).size) ∨
      Canonical hasher (reserve_ dest src.size)) :=
    Or.inl ⟨hA0len, hdest.sizeEq, hA0occ⟩
  rcases assignFold_spec src.elemets (reserve_ dest src.size) hstale with
    ⟨a, hres, hsizeA, hpairsA, hfin⟩
  have hCa : Canonical hasher a := by
    rcases hfin with ⟨g1, g2, g3, g4⟩ | hC
    · exfalso
      have h4 := g4 hne
      have h5 : a.size = dest.size + src.elemets.length := hsizeA
      have h6 := hsrc.sizeEq
      have h7 : src.elemets.length ≠ 0 := fun h => hne (List.length_eq_zero.mp h)
      unfold REBUILD_CONSTANT EXTENDED_CONSTANT at h4
      omega
    · exact hC
  have h0 : pairsOf ((reserve_ dest src.size).elemets) = pairsOf dest.elemets := rfl
  refine ⟨a, hres, ?_, ?_⟩
  · show pairsOf a.elemets = pairsOf dest.elemets ++ pairsOf src.elemets
    rw [hpairsA, h0]
  · intro k v hmem
    have hmem' : (k, v) ∈ pairsOf dest.elemets := hmem
    have hndp : ((pairsOf dest.elemets).map Prod.fst).Nodup := by
      show ((dest.elemets.map (fun e => (e.2.1, e.2.2))).map Prod.fst).Nodup
      rw [List.map_map]
      exact hnd
    have hfp : (pairsOf dest.elemets).find? (fun q => decide (q.1 = k)) = some (k, v) :=
      find?_key_of_nodup hndp hmem'
    have hfp2 : (pairsOf a.elemets).find? (fun q => decide (q.1 = k)) = some (k, v) := by
      rw [hpairsA, h0]
      exact find?_append_left hfp _
    rw [find?_pairsOf] at hfp2
    cases hfind : a.elemets.find? (fun e => decide (e.2.1 = k)) with
    | none =>
      rw [hfind] at hfp2
      exact Option.noConfusion hfp2
    | some e0 =>
      rw [hfind] at hfp2
      have hpair : (e0.2.1, e0.2.2) = (k, v) := Option.some.inj hfp2
      have hkey : e0.2.1 = k := congrArg Prod.fst hpair
      have hval : e0.2.2 = v := congrArg Prod.snd hpair
      have hmem0 := List.mem_of_find?_eq_some hfind
      rcases hCa.covered e0 hmem0 with ⟨p, dd, I, hslot⟩
      rw [hkey] at hslot
      rcases hCa.canon I k ⟨p, dd, hslot⟩ with ⟨v', hv'⟩
      rw [hfind] at hv'
      have he0 : e0 = (I, k, v') := Option.some.inj hv'
      have hv'v : v' = v := by
        rw [he0] at hval
        exact hval
      have he0' : e0 = (I, k, v) := by rw [he0, hv'v]
      have hmemI : (I, k, v) ∈ a.elemets := by
        rw [← he0']
        exact hmem0
      have hfindk : HashMap.find hasher a k = some (some I) := find_present hCa.inv hslot
      have hderef : derefVal a.elemets I = some v := by
        unfold derefVal
        rw [find?_id_of_nodup hCa.inv.idsNodup hmemI]
        rfl
      show HashMap.atKey hasher a k = some (some v)
      simp only [HashMap.atKey, hfindk, hderef]

/-- Witness for the amended C7: assigning the one-entry map `mEx` onto an
equal-valued destination. -/
theorem C7_amended_witness :
    Inv idHash mEx ∧ (mEx.elemets.map (fun e => e.2.1)).Nodup ∧ mEx.elemets ≠ [] ∧
    (∃ a, HashMap.assign idHash mEx mEx = some a ∧
      a.toPairs = mEx.toPairs ++ mEx.toPairs ∧
      (∀ k v, (k, v) ∈ mEx.toPairs → HashMap.atKey idHash a k = some (some v))) :=
  ⟨Inv_mEx, by decide, by decide,
    C7_assign_keeps_destination Inv_mEx Inv_mEx (by decide) (by decide)⟩

end RH
